import Mathlib

/-!
Verification of the llama_dashboard core subsystems against their source.

The development shallowly embeds three subsystems of the repository:

* `Gen`  — the streaming generation loop of
  `crates/llama-core/src/generate.rs` (`generate_blocking`);
* `GGUF` — the GGUF metadata parser and directory scanner of
  `crates/gguf-parser/src/reader.rs` and `types.rs`;
* `MM`   — the multi-model slot table of
  `crates/server/src/services/model_manager.rs`.

Machine integers are modelled as `Nat`/`Int`; byte streams as `List Nat`;
the opaque llama.cpp decoder is abstracted as an oracle supplying the
sampled tokens, decoded pieces and decode outcomes (the only ways the
decoder influences the control flow under verification).
-/

namespace Gen

/-- `FinishReason` from `generate.rs`. -/
inductive FinishReason where
  | Stop
  | Length
  | StopWord (w : String)
deriving DecidableEq

/-- `GenerateEvent` from `generate.rs`. -/
inductive GenerateEvent where
  | Token (piece : String)
  | Done (finish_reason : FinishReason) (prompt_tokens : Nat) (completion_tokens : Nat)
  | Error (msg : String)
deriving DecidableEq

/-- `GenerateRequest` from `generate.rs`.  The `sampling_params` field only
feeds the sampler chain, which is abstracted into `Decoder.sample`, so it is
not carried here. -/
structure GenerateRequest where
  tokens : List Int
  max_tokens : Nat
  stop_words : List String

/-- Abstraction of the llama.cpp context/model/sampler used by
`generate_blocking`: `eos`/`eot` are the model's terminal tokens, `n_ctx`
the context size, `sample k` the token the sampler chain returns at the
`k`-th generation step, `piece` the `token_to_piece` table, and
`prompt_decode` / `step_decode k` the outcomes of `ctx.decode` on the
prompt batch and on the `k`-th single-token batch (`none` = success,
`some e` = the error rendered into the `Error` event). -/
structure Decoder where
  eos : Int
  eot : Int
  n_ctx : Int
  prompt_decode : Option String
  sample : Nat → Int
  piece : Int → String
  step_decode : Nat → Option String

/-- Rust `str::ends_with`, on the character lists underlying the strings. -/
def str_ends_with (s pat : String) : Bool :=
  List.isSuffixOf pat.data s.data

/-- The token-generation loop of `generate_blocking` (`generate.rs`,
lines 94-163).  The channel is modelled as always open (no receiver drop):
every `blocking_send` succeeds, and the emitted events are collected in
order into the result list.  `fuel` is a structural-recursion bound;
`generate_blocking` passes `req.max_tokens + 1`, which lemma
`genLoop_fuel_irrel` shows is never exhausted (the loop increments
`completion_tokens` every iteration and stops at `max_tokens`). -/
def genLoop (d : Decoder) (req : GenerateRequest) (prompt_tokens : Nat) :
    Nat → Nat → List Char → Int → List GenerateEvent
  | 0, _, _, _ => []
  | fuel + 1, completion_tokens, generated_text, n_cur =>
    if completion_tokens ≥ req.max_tokens then
      [.Done .Length prompt_tokens completion_tokens]
    else if d.sample completion_tokens = d.eos ∨ d.sample completion_tokens = d.eot then
      [.Done .Stop prompt_tokens (completion_tokens + 1)]
    else
      match req.stop_words.find?
          (fun sw => str_ends_with ⟨generated_text ++ (d.piece (d.sample completion_tokens)).data⟩ sw) with
      | some sw => [.Done (.StopWord sw) prompt_tokens (completion_tokens + 1)]
      | none =>
        .Token (d.piece (d.sample completion_tokens)) ::
          (if n_cur ≥ d.n_ctx then
            [.Done .Length prompt_tokens (completion_tokens + 1)]
          else
            match d.step_decode completion_tokens with
            | some e => [.Error ("decode: " ++ e)]
            | none =>
              genLoop d req prompt_tokens fuel (completion_tokens + 1)
                (generated_text ++ (d.piece (d.sample completion_tokens)).data) (n_cur + 1))

/-- `generate_blocking` (`generate.rs`, lines 64-164): prompt decode, then
the generation loop with `prompt_tokens = tokens.len()`, starting text empty
and `n_cur = tokens.len()`. -/
def generate_blocking (d : Decoder) (req : GenerateRequest) : List GenerateEvent :=
  match d.prompt_decode with
  | some e => [.Error ("prompt decode: " ++ e)]
  | none =>
      genLoop d req req.tokens.length (req.max_tokens + 1) 0 [] (req.tokens.length : Int)

/-- An event that ends a generation run: `Done` or `Error`. -/
def is_terminal : GenerateEvent → Bool
  | .Token _ => false
  | .Done _ _ _ => true
  | .Error _ => true

/-- Concrete request for the C8 witness. -/
def zeroReq : GenerateRequest := { tokens := [10, 11], max_tokens := 0, stop_words := [] }

/-- Mock decoder of spec §8: token stream `[100, 101, 102, eos]` with
`eos = 2`, pieces `100→"a"`, `101→"b"`, `102→"c"`, ample context, and all
decodes succeeding. -/
def mockDecoder : Decoder where
  eos := 2
  eot := 3
  n_ctx := 4096
  prompt_decode := none
  sample := fun k => [(100 : Int), 101, 102, 2].getD k 2
  piece := fun t => if t = 100 then "a" else if t = 101 then "b" else if t = 102 then "c" else ""
  step_decode := fun _ => none

/-- Concrete request of the stop-word scenario: prompt `[10, 11]`,
`max_tokens = 10`, `stop_words = ["b"]`. -/
def stopReq : GenerateRequest := { tokens := [10, 11], max_tokens := 10, stop_words := ["b"] }

end Gen

namespace Fs

/-- A filesystem path, as its list of components; the last component is the
file name.  Component strings carry the `OsStr` text. -/
abbrev Path := List String

/-- Index of the last `'.'` in a file name, if any. -/
def last_dot_idx (cs : List Char) : Option Nat :=
  match cs.reverse.findIdx? (fun c => c = '.') with
  | none => none
  | some k => some (cs.length - 1 - k)

/-- Rust `Path::file_stem` restricted to a plain file name: the whole name
when it has no `.` or starts with its only `.`; otherwise the portion
before the final `.`. -/
def stem_of_name (s : String) : String :=
  match last_dot_idx s.data with
  | none => s
  | some i => if i = 0 then s else ⟨s.data.take i⟩

/-- Rust `Path::extension` restricted to a plain file name. -/
def ext_of_name (s : String) : Option String :=
  match last_dot_idx s.data with
  | none => none
  | some i => if i = 0 then none else some ⟨s.data.drop (i + 1)⟩

/-- `path.file_name().unwrap_or_default()`. -/
def file_name (p : Path) : String := p.getLast?.getD ""

/-- `path.file_stem().unwrap_or_default().to_string_lossy().to_string()`. -/
def file_stem (p : Path) : String := stem_of_name (file_name p)

/-- `path.extension()`. -/
def extension (p : Path) : Option String := ext_of_name (file_name p)

/-- `path.parent()`: `none` only for the empty path. -/
def parent (p : Path) : Option Path :=
  match p with
  | [] => none
  | _ => some p.dropLast

/-- Character-list comparison by code point (byte order on ASCII), as in
`OsStr`/`Path` ordering. -/
def chars_cmp : List Char → List Char → Ordering
  | [], [] => .eq
  | [], _ :: _ => .lt
  | _ :: _, [] => .gt
  | a :: xs, b :: ys =>
    if a.toNat < b.toNat then .lt
    else if b.toNat < a.toNat then .gt
    else chars_cmp xs ys

def str_cmp (a b : String) : Ordering := chars_cmp a.data b.data

/-- Component-wise path comparison, as `PathBuf: Ord`. -/
def path_cmp : Path → Path → Ordering
  | [], [] => .eq
  | [], _ :: _ => .lt
  | _ :: _, [] => .gt
  | a :: xs, b :: ys =>
    match str_cmp a b with
    | .eq => path_cmp xs ys
    | o => o

def path_le (a b : Path) : Bool :=
  match path_cmp a b with
  | .gt => false
  | _ => true

/-- Insertion sort, modelling `Vec::sort` (the scan only relies on the
result being sorted). -/
def insert_le {α : Type} (le : α → α → Bool) (x : α) : List α → List α
  | [] => [x]
  | y :: ys => if le x y then x :: y :: ys else y :: insert_le le x ys

def sort_le {α : Type} (le : α → α → Bool) (l : List α) : List α :=
  l.foldr (insert_le le) []

end Fs

namespace MM

/-- `ModelStatus` from `model_manager.rs`. -/
inductive ModelStatus where
  | Loading
  | Ready
  | Unloading
deriving DecidableEq

/-- An `Arc<LoadedModel>` handle.  `ext_refs` is the number of strong owners
besides the one held by the slot table, so `Arc::strong_count = 1 + ext_refs`
for a handle sitting in a slot. -/
structure Handle where
  id : String
  path : Fs.Path
  ext_refs : Nat
deriving DecidableEq

/-- `ModelSlot`.  `last_used` is a logical monotonic timestamp standing for
the `Instant`. -/
structure ModelSlot where
  status : ModelStatus
  loaded : Option Handle
  last_used : Nat
deriving DecidableEq

/-- The fields of `ModelManagerConfig` the modelled operations consult. -/
structure ModelManagerConfig where
  max_models : Nat
  idle_timeout_secs : Nat
deriving DecidableEq

/-- Manager state: the `id → slot` map (an insertion-ordered association
list standing for the `HashMap`; iteration order is arbitrary in Rust and
no claim depends on it) and the model-directory list. -/
structure MMState where
  slots : List (String × ModelSlot)
  model_dirs : List Fs.Path
deriving DecidableEq

/-- `ModelManager::new`. -/
def new (dirs : List Fs.Path) : MMState := ⟨[], dirs⟩

def slots_get (sl : List (String × ModelSlot)) (id : String) : Option ModelSlot :=
  (sl.find? (fun p => p.1 == id)).map (fun p => p.2)

/-- `HashMap::insert`: replace the value under an existing key, else add. -/
def slots_insert : List (String × ModelSlot) → String → ModelSlot → List (String × ModelSlot)
  | [], id, v => [(id, v)]
  | p :: rest, id, v => if p.1 == id then (id, v) :: rest else p :: slots_insert rest id v

/-- `HashMap::remove`. -/
def slots_remove (sl : List (String × ModelSlot)) (id : String) : List (String × ModelSlot) :=
  sl.filter (fun p => !(p.1 == id))

/-- The `Arc::strong_count(l) <= 1` test used by eviction and the idle sweep
(`unwrap_or(true)` when the slot holds no handle). -/
def no_external_refs (s : ModelSlot) : Bool :=
  match s.loaded with
  | some h => h.ext_refs == 0
  | none => true

def ready_or_loading (s : ModelSlot) : Bool :=
  s.status == .Ready || s.status == .Loading

def ready_loading_count (sl : List (String × ModelSlot)) : Nat :=
  (sl.filter (fun p => ready_or_loading p.2)).length

/-- `min_by_key(|(_, s)| s.last_used)`: the first minimum in iteration
order, as Rust's `min_by_key`. -/
def min_by_last_used : List (String × ModelSlot) → Option (String × ModelSlot)
  | [] => none
  | x :: xs =>
    match min_by_last_used xs with
    | none => some x
    | some y => if x.2.last_used ≤ y.2.last_used then some x else some y

/-- Victim selection inside `maybe_evict`: the LRU among Ready slots with no
external references. -/
def pick_victim (sl : List (String × ModelSlot)) : Option String :=
  (min_by_last_used
    (sl.filter (fun p => p.2.status == .Ready && no_external_refs p.2))).map (fun p => p.1)

/-- The `while` loop of `maybe_evict`.  `fuel` bounds the iterations purely
for structural recursion; each iteration removes a present key, so
`sl.length` (what `maybe_evict` passes) is never exhausted. -/
def evict_loop (max : Nat) : Nat → List (String × ModelSlot) → List (String × ModelSlot)
  | 0, sl => sl
  | fuel + 1, sl =>
    if ready_loading_count sl ≥ max then
      match pick_victim sl with
      | some id => evict_loop max fuel (slots_remove sl id)
      | none => sl
    else sl

/-- `ModelManager::maybe_evict` (`model_manager.rs`, lines 383-423). -/
def maybe_evict (cfg : ModelManagerConfig) (st : MMState) : MMState :=
  if cfg.max_models = 0 then st
  else { st with slots := evict_loop cfg.max_models st.slots.length st.slots }

/-- `ModelManager.touch`. -/
def touch (st : MMState) (id : String) (now : Nat) : MMState :=
  { st with slots := st.slots.map (fun p =>
      if p.1 == id then (p.1, { p.2 with last_used := now }) else p) }

/-- `ModelManager.add_model_dir`. -/
def add_model_dir (st : MMState) (dir : Fs.Path) : MMState :=
  if st.model_dirs.contains dir then st
  else { st with model_dirs := st.model_dirs ++ [dir] }

/-- `ModelManager::load` (`model_manager.rs`, lines 137-225).  The llama.cpp
backend is abstracted by `ok`/`err` (whether `LlamaModel::load_from_file`
and `LlamaContext::new` both succeed, and the rendered error otherwise);
`ext_refs` is the number of external strong owners the returned handle keeps
while alive; `now` stands for the `Instant::now()` readings taken during the
call; `fs::canonicalize` is modelled as the identity (its `unwrap_or_else`
fallback already is). -/
def load (cfg : ModelManagerConfig) (st : MMState) (path : Fs.Path)
    (ok : Bool) (err : String) (ext_refs : Nat) (now : Nat) :
    Except String Handle × MMState :=
  let id := Fs.file_stem path
  let hit : Option Handle :=
    match slots_get st.slots id with
    | some s => if s.status == .Ready then s.loaded else none
    | none => none
  match hit with
  | some h => (.ok h, touch st id now)
  | none =>
    let st1 := maybe_evict cfg st
    let st2 := { st1 with slots := slots_insert st1.slots id ⟨.Loading, none, now⟩ }
    if ok then
      let h : Handle := ⟨id, path, ext_refs⟩
      let st3 := { st2 with slots := slots_insert st2.slots id ⟨.Ready, some h, now⟩ }
      let st4 :=
        match Fs.parent path with
        | some par => add_model_dir st3 par
        | none => st3
      (.ok h, st4)
    else
      (.error err, { st2 with slots := slots_remove st2.slots id })

/-- `ModelManager.unload` (the transient `Unloading` marking is followed by
removal under the same lock, so the net effect is removal). -/
def unload (st : MMState) (id : String) : Bool × MMState :=
  match slots_get st.slots id with
  | some _ => (true, { st with slots := slots_remove st.slots id })
  | none => (false, st)

/-- `ModelManager::sweep_idle` (`model_manager.rs`, lines 426-449).  `now`
models `Instant::now()`; the cutoff comparison is done in `Int` to mirror
`Instant` arithmetic without `Nat` truncation. -/
def sweep_idle (st : MMState) (timeout_secs : Nat) (now : Nat) : MMState :=
  if timeout_secs = 0 then st
  else
    { st with slots := st.slots.filter (fun p =>
        !(p.2.status == .Ready &&
          decide ((p.2.last_used : Int) < (now : Int) - (timeout_secs : Int)) &&
          no_external_refs p.2)) }

/-- `ModelManager.is_loaded`. -/
def is_loaded (st : MMState) (id : String) : Bool :=
  ((slots_get st.slots id).map (fun s => s.status == .Ready)).getD false

/-- One row of `ModelManager::slot_info` (epoch taken as 0; the path column
is the handle's path, empty when the slot holds none). -/
structure SlotInfo where
  id : String
  path : Fs.Path
  status : ModelStatus
  last_used : Nat
deriving DecidableEq

def slot_info (st : MMState) : List SlotInfo :=
  st.slots.map (fun p =>
    ⟨p.1, ((p.2.loaded).map (fun h => h.path)).getD [], p.2.status, p.2.last_used⟩)

/-- The tick interval `spawn_idle_checker` computes (`model_manager.rs`,
lines 453-477), in seconds: `none` when `idle_timeout_secs == 0` (the task
is not spawned at all), otherwise the argument of
`Duration::from_secs(idle_timeout_secs.max(30).min(idle_timeout_secs))`. -/
def spawn_idle_checker_interval (idle_timeout_secs : Nat) : Option Nat :=
  if idle_timeout_secs = 0 then none
  else some (min (max idle_timeout_secs 30) idle_timeout_secs)

/-- The slot-table operations a client can drive, with the ambient
nondeterminism (timestamps, backend outcomes, external reference counts)
made explicit as parameters. -/
inductive MOp where
  | load (path : Fs.Path) (ok : Bool) (err : String) (ext_refs now : Nat)
  | unload (id : String)
  | touch (id : String) (now : Nat)
  | sweep_idle (timeout_secs now : Nat)
  | evict

def step (cfg : ModelManagerConfig) (st : MMState) : MOp → MMState
  | .load path ok err er now => (load cfg st path ok err er now).2
  | .unload id => (unload st id).2
  | .touch id now => touch st id now
  | .sweep_idle t now => sweep_idle st t now
  | .evict => maybe_evict cfg st

def run (cfg : ModelManagerConfig) (st : MMState) (ops : List MOp) : MMState :=
  ops.foldl (step cfg) st

/-- The slot-map invariants of claim C4: distinct slot ids, `Ready` slots
hold a handle, `Loading` slots hold none. -/
def WF (st : MMState) : Prop :=
  (st.slots.map Prod.fst).Nodup ∧
  ∀ p ∈ st.slots, (p.2.status = .Ready → p.2.loaded.isSome = true) ∧
    (p.2.status = .Loading → p.2.loaded = none)

/-- Config and operation sequence of the spec's LRU-eviction scenario:
`max_models = 2`; load A, load B, touch A, load C. -/
def cfg2 : ModelManagerConfig := ⟨2, 0⟩

def pathA : Fs.Path := ["models", "A.gguf"]

def pathB : Fs.Path := ["models", "B.gguf"]

def pathC : Fs.Path := ["models", "C.gguf"]

def lruScenario : MMState :=
  run cfg2 (new [])
    [.load pathA true "" 0 1, .load pathB true "" 0 2, .touch "A" 3, .load pathC true "" 0 4]

end MM

namespace GGUF

/-- `GGUF_MAGIC` from `types.rs` (`0x4655_4747`, the bytes `GGUF` read
little-endian). -/
def GGUF_MAGIC : Nat := 0x46554747

/-- `GGUF_VERSION_MAX` from `types.rs`. -/
def GGUF_VERSION_MAX : Nat := 3

/-- `QUICK_SCAN_LIMIT` from `reader.rs`. -/
def QUICK_SCAN_LIMIT : Nat := 8 * 1024 * 1024

/-- The only `std::io` error kind the byte-list model can produce
(`read_exact` on exhausted input).  Named `IoErrorKind` for Rust's
`io::ErrorKind`. -/
inductive IoErrorKind where
  | UnexpectedEof
deriving DecidableEq

/-- `GGUFError` from `types.rs` (`IoError` stands for the `Io` variant). -/
inductive GGUFError where
  | IoError (kind : IoErrorKind)
  | InvalidMagic (m : Nat)
  | UnsupportedVersion (v : Nat)
  | InvalidValueType (v : Nat)
  | TruncatedHeader
  | Other (msg : String)
deriving DecidableEq

/-- `GGUFValueType` from `types.rs`. -/
inductive GGUFValueType where
  | Uint8
  | Int8
  | Uint16
  | Int16
  | Uint32
  | Int32
  | Float32
  | Bool
  | String
  | Array
  | Uint64
  | Int64
  | Float64
deriving DecidableEq

/-- `TryFrom<u32> for GGUFValueType`. -/
def GGUFValueType.try_from (v : Nat) : Except GGUFError GGUFValueType :=
  match v with
  | 0 => .ok .Uint8
  | 1 => .ok .Int8
  | 2 => .ok .Uint16
  | 3 => .ok .Int16
  | 4 => .ok .Uint32
  | 5 => .ok .Int32
  | 6 => .ok .Float32
  | 7 => .ok .Bool
  | 8 => .ok .String
  | 9 => .ok .Array
  | 10 => .ok .Uint64
  | 11 => .ok .Int64
  | 12 => .ok .Float64
  | _ => .error (.InvalidValueType v)

/-- `GGUFValue` from `types.rs`.  Unsigned payloads are `Nat`, signed ones
`Int`; float payloads keep their raw little-endian bytes (`from_le_bytes`
is a bijection on the 4/8-byte patterns, and no verified property consumes
float semantics); strings keep their raw bytes (`from_utf8_lossy` is the
identity on the ASCII keys the scanner compares against). -/
inductive GGUFValue where
  | Uint8 (v : Nat)
  | Int8 (v : Int)
  | Uint16 (v : Nat)
  | Int16 (v : Int)
  | Uint32 (v : Nat)
  | Int32 (v : Int)
  | Float32 (bytes : List Nat)
  | Bool (v : Bool)
  | String (bytes : List Nat)
  | Array (elems : List GGUFValue)
  | Uint64 (v : Nat)
  | Int64 (v : Int)
  | Float64 (bytes : List Nat)

/-- `GGUFMetadataKV` from `types.rs` (the key as its UTF-8 bytes). -/
structure GGUFMetadataKV where
  key : List Nat
  value_type : GGUFValueType
  value : GGUFValue

/-- `GGUFHeader` from `types.rs`. -/
structure GGUFHeader where
  version : Nat
  tensor_count : Nat
  metadata_kv_count : Nat
deriving DecidableEq

/-- `Read::read_exact` over a byte list: the stream is `data` with cursor
`pos`; on success returns the `n` bytes and the advanced cursor, otherwise
the `UnexpectedEof` I/O error (the only way a byte-list read fails). -/
def read_exact (data : List Nat) (n pos : Nat) : Except GGUFError (List Nat × Nat) :=
  if pos + n ≤ data.length then .ok ((data.drop pos).take n, pos + n)
  else .error (.IoError .UnexpectedEof)

/-- `uN::from_le_bytes` (bytes taken mod 256, little-endian). -/
def le_nat (bs : List Nat) : Nat :=
  bs.foldr (fun b acc => b % 256 + 256 * acc) 0

/-- Two's-complement reinterpretation of a `w`-bit unsigned value
(`iN::from_le_bytes` composed with `le_nat`). -/
def signed (w : Nat) (v : Nat) : Int :=
  if v < 2 ^ (w - 1) then (v : Int) else (v : Int) - 2 ^ w

/-- `read_u32` from `reader.rs`: `read_exact` with **every** error mapped to
`TruncatedHeader`. -/
def read_u32 (data : List Nat) (pos : Nat) : Except GGUFError (Nat × Nat) :=
  match read_exact data 4 pos with
  | .ok (bs, pos') => .ok (le_nat bs, pos')
  | .error _ => .error .TruncatedHeader

/-- `read_u64` from `reader.rs`: like `read_u32`, errors become
`TruncatedHeader`. -/
def read_u64 (data : List Nat) (pos : Nat) : Except GGUFError (Nat × Nat) :=
  match read_exact data 8 pos with
  | .ok (bs, pos') => .ok (le_nat bs, pos')
  | .error _ => .error .TruncatedHeader

/-- Common shape of `read_u8`/`read_u16` (and the unsigned halves of the
signed readers): `read_exact` + `from_le_bytes`, I/O errors propagated
unchanged (the Rust `?`). -/
def read_scalar (data : List Nat) (n pos : Nat) : Except GGUFError (Nat × Nat) :=
  match read_exact data n pos with
  | .ok (bs, pos') => .ok (le_nat bs, pos')
  | .error e => .error e

def read_u8 (data : List Nat) (pos : Nat) : Except GGUFError (Nat × Nat) :=
  read_scalar data 1 pos

def read_u16 (data : List Nat) (pos : Nat) : Except GGUFError (Nat × Nat) :=
  read_scalar data 2 pos

def read_i8 (data : List Nat) (pos : Nat) : Except GGUFError (Int × Nat) :=
  match read_scalar data 1 pos with
  | .ok (v, pos') => .ok (signed 8 v, pos')
  | .error e => .error e

def read_i16 (data : List Nat) (pos : Nat) : Except GGUFError (Int × Nat) :=
  match read_scalar data 2 pos with
  | .ok (v, pos') => .ok (signed 16 v, pos')
  | .error e => .error e

def read_i32 (data : List Nat) (pos : Nat) : Except GGUFError (Int × Nat) :=
  match read_scalar data 4 pos with
  | .ok (v, pos') => .ok (signed 32 v, pos')
  | .error e => .error e

def read_i64 (data : List Nat) (pos : Nat) : Except GGUFError (Int × Nat) :=
  match read_scalar data 8 pos with
  | .ok (v, pos') => .ok (signed 64 v, pos')
  | .error e => .error e

/-- `read_f32`: the 4 raw bytes (float semantics not interpreted). -/
def read_f32 (data : List Nat) (pos : Nat) : Except GGUFError (List Nat × Nat) :=
  read_exact data 4 pos

/-- `read_f64`: the 8 raw bytes. -/
def read_f64 (data : List Nat) (pos : Nat) : Except GGUFError (List Nat × Nat) :=
  read_exact data 8 pos

def read_bool (data : List Nat) (pos : Nat) : Except GGUFError (Bool × Nat) :=
  match read_u8 data pos with
  | .ok (v, pos') => .ok (v ≠ 0, pos')
  | .error e => .error e

/-- `read_string` from `reader.rs`: u64 length prefix (`TruncatedHeader` on
a short read), 1,000,000-byte bound, then the raw bytes (I/O error on a
short read).  `from_utf8_lossy` is modelled as the identity on bytes. -/
def read_string (data : List Nat) (pos : Nat) : Except GGUFError (List Nat × Nat) :=
  match read_u64 data pos with
  | .error e => .error e
  | .ok (len, pos₁) =>
    if len > 1000000 then .error (.Other ("string length " ++ toString len ++ " too large"))
    else
      match read_exact data len pos₁ with
      | .error e => .error e
      | .ok (bs, pos₂) => .ok (bs, pos₂)

mutual

/-- `read_value` from `reader.rs`.  The `fuel` argument makes the
array recursion structural; it only decreases across recursive calls and
`read_kv` supplies `2 * (bytes remaining) + 2`, which
`read_value_fuel_irrel` proves is never exhausted (every array element
consumes at least one byte), so the fuel-0 branch is unreachable there. -/
def read_value (data : List Nat) : Nat → GGUFValueType → Nat →
    Except GGUFError (GGUFValue × Nat)
  | 0, _, _ => .error .TruncatedHeader
  | fuel + 1, t, pos =>
    match t with
    | .Uint8 =>
      match read_u8 data pos with
      | .ok (v, pos') => .ok (.Uint8 v, pos')
      | .error e => .error e
    | .Int8 =>
      match read_i8 data pos with
      | .ok (v, pos') => .ok (.Int8 v, pos')
      | .error e => .error e
    | .Uint16 =>
      match read_u16 data pos with
      | .ok (v, pos') => .ok (.Uint16 v, pos')
      | .error e => .error e
    | .Int16 =>
      match read_i16 data pos with
      | .ok (v, pos') => .ok (.Int16 v, pos')
      | .error e => .error e
    | .Uint32 =>
      match read_u32 data pos with
      | .ok (v, pos') => .ok (.Uint32 v, pos')
      | .error e => .error e
    | .Int32 =>
      match read_i32 data pos with
      | .ok (v, pos') => .ok (.Int32 v, pos')
      | .error e => .error e
    | .Float32 =>
      match read_f32 data pos with
      | .ok (v, pos') => .ok (.Float32 v, pos')
      | .error e => .error e
    | .Bool =>
      match read_bool data pos with
      | .ok (v, pos') => .ok (.Bool v, pos')
      | .error e => .error e
    | .String =>
      match read_string data pos with
      | .ok (v, pos') => .ok (.String v, pos')
      | .error e => .error e
    | .Array =>
      match read_u32 data pos with
      | .error e => .error e
      | .ok (tRaw, pos₁) =>
        match GGUFValueType.try_from tRaw with
        | .error e => .error e
        | .ok elem_t =>
          match read_u64 data pos₁ with
          | .error e => .error e
          | .ok (count, pos₂) =>
            if count > 10000000 then
              .error (.Other ("array length " ++ toString count ++ " too large"))
            else
              match read_elems data fuel elem_t count pos₂ with
              | .ok (vs, pos₃) => .ok (.Array vs, pos₃)
              | .error e => .error e
    | .Uint64 =>
      match read_u64 data pos with
      | .ok (v, pos') => .ok (.Uint64 v, pos')
      | .error e => .error e
    | .Int64 =>
      match read_i64 data pos with
      | .ok (v, pos') => .ok (.Int64 v, pos')
      | .error e => .error e
    | .Float64 =>
      match read_f64 data pos with
      | .ok (v, pos') => .ok (.Float64 v, pos')
      | .error e => .error e

/-- The `for _ in 0..count { arr.push(read_value(r, elem_type)?) }` loop of
the `Array` branch. -/
def read_elems (data : List Nat) : Nat → GGUFValueType → Nat → Nat →
    Except GGUFError (List GGUFValue × Nat)
  | 0, _, _, _ => .error .TruncatedHeader
  | _ + 1, _, 0, pos => .ok ([], pos)
  | fuel + 1, t, count + 1, pos =>
    match read_value data fuel t pos with
    | .error e => .error e
    | .ok (v, pos₁) =>
      match read_elems data fuel t count pos₁ with
      | .error e => .error e
      | .ok (vs, pos₂) => .ok (v :: vs, pos₂)

end

/-- `read_kv` from `reader.rs`. -/
def read_kv (data : List Nat) (pos : Nat) : Except GGUFError (GGUFMetadataKV × Nat) :=
  match read_string data pos with
  | .error e => .error e
  | .ok (key, pos₁) =>
    match read_u32 data pos₁ with
    | .error e => .error e
    | .ok (vtype_raw, pos₂) =>
      match GGUFValueType.try_from vtype_raw with
      | .error e => .error e
      | .ok vtype =>
        match read_value data (2 * (data.length - pos₂) + 2) vtype pos₂ with
        | .error e => .error e
        | .ok (value, pos₃) => .ok (⟨key, vtype, value⟩, pos₃)

/-- The metadata loop of `quick_scan` (`reader.rs`, lines 88-99): up to
`metadata_kv_count` iterations, breaking at the scan-window limit or on an
`UnexpectedEof` I/O error, propagating every other error. -/
def kv_loop (data : List Nat) (limit : Nat) :
    Nat → Nat → List GGUFMetadataKV → Except GGUFError (List GGUFMetadataKV)
  | 0, _, acc => .ok acc.reverse
  | n + 1, pos, acc =>
    if pos ≥ limit then .ok acc.reverse
    else
      match read_kv data pos with
      | .ok (kv, pos') => kv_loop data limit n pos' (kv :: acc)
      | .error (.IoError .UnexpectedEof) => .ok acc.reverse
      | .error e => .error e

/-- UTF-8/ASCII bytes of a literal key. -/
def ascii (s : String) : List Nat := s.data.map Char.toNat

def GGUFValue.as_u32 : GGUFValue → Option Nat
  | .Uint32 v => some v
  | .Int32 v => some ((v % 4294967296).toNat)
  | .Uint64 v => some (v % 4294967296)
  | _ => none

def GGUFValue.as_str : GGUFValue → Option (List Nat)
  | .String bs => some bs
  | _ => none

/-- `file_type_name` from `types.rs`. -/
def file_type_name (ft : Nat) : String :=
  match ft with
  | 0 => "F32"
  | 1 => "F16"
  | 2 => "Q4_0"
  | 3 => "Q4_1"
  | 7 => "Q8_0"
  | 8 => "Q5_0"
  | 9 => "Q5_1"
  | 10 => "Q2_K"
  | 11 => "Q3_K_S"
  | 12 => "Q3_K_M"
  | 13 => "Q3_K_L"
  | 14 => "Q4_K_S"
  | 15 => "Q4_K_M"
  | 16 => "Q5_K_S"
  | 17 => "Q5_K_M"
  | 18 => "Q6_K"
  | 19 => "IQ2_XXS"
  | 20 => "IQ2_XS"
  | 21 => "Q2_K_S"
  | 22 => "IQ3_XS"
  | 23 => "IQ3_XXS"
  | 24 => "IQ1_S"
  | 25 => "IQ4_NL"
  | 26 => "IQ3_S"
  | 27 => "IQ3_M"
  | 28 => "IQ2_S"
  | 29 => "IQ2_M"
  | 30 => "IQ4_XS"
  | 31 => "IQ1_M"
  | 32 => "BF16"
  | _ => "Unknown"

/-- The `HashMap<&str, &GGUFValue>` view built from the metadata
(`collect` lets later duplicates of a key overwrite earlier ones, so lookup
returns the last occurrence). -/
def kv_get (metadata : List GGUFMetadataKV) (key : List Nat) : Option GGUFValue :=
  (metadata.reverse.find? (fun kv => kv.key == key)).map (fun kv => kv.value)

/-- `QuickScanResult` from `reader.rs` (the `file_path` field is dropped:
the model identifies a file with its byte contents; strings are raw
bytes). -/
structure QuickScanResult where
  file_size : Nat
  header : GGUFHeader
  architecture : Option (List Nat)
  name : Option (List Nat)
  file_type : Option Nat
  file_type_name : Option String
  context_length : Option Nat
  embedding_length : Option Nat
  chat_template : Option (List Nat)
  metadata : List GGUFMetadataKV

/-- `quick_scan` from `reader.rs`, on the file's bytes. -/
def quick_scan (data : List Nat) : Except GGUFError QuickScanResult :=
  match read_u32 data 0 with
  | .error e => .error e
  | .ok (magic, pos₁) =>
    if magic ≠ GGUF_MAGIC then .error (.InvalidMagic magic)
    else
      match read_u32 data pos₁ with
      | .error e => .error e
      | .ok (version, pos₂) =>
        if version > GGUF_VERSION_MAX then .error (.UnsupportedVersion version)
        else
          match read_u64 data pos₂ with
          | .error e => .error e
          | .ok (tensor_count, pos₃) =>
            match read_u64 data pos₃ with
            | .error e => .error e
            | .ok (metadata_kv_count, pos₄) =>
              match kv_loop data (min data.length QUICK_SCAN_LIMIT)
                  metadata_kv_count pos₄ [] with
              | .error e => .error e
              | .ok metadata =>
                let architecture :=
                  (kv_get metadata (ascii "general.architecture")).bind GGUFValue.as_str
                let name := (kv_get metadata (ascii "general.name")).bind GGUFValue.as_str
                let file_type :=
                  (kv_get metadata (ascii "general.file_type")).bind GGUFValue.as_u32
                let arch := architecture.getD (ascii "llama")
                .ok
                  { file_size := data.length
                    header := ⟨version, tensor_count, metadata_kv_count⟩
                    architecture := architecture
                    name := name
                    file_type := file_type
                    file_type_name := file_type.map file_type_name
                    context_length :=
                      (kv_get metadata (arch ++ ascii ".context_length")).bind GGUFValue.as_u32
                    embedding_length :=
                      (kv_get metadata (arch ++ ascii ".embedding_length")).bind GGUFValue.as_u32
                    chat_template :=
                      (kv_get metadata (ascii "tokenizer.chat_template")).bind GGUFValue.as_str
                    metadata := metadata }

end GGUF

namespace GGUF

/-- `ModelEntry` from `reader.rs` (the display name as UTF-8/ASCII bytes,
matching the byte-level string model of the parser). -/
structure ModelEntry where
  id : String
  name : List Nat
  path : Fs.Path
  file_size : Nat
  architecture : Option (List Nat)
  quantization : Option String
  context_length : Option Nat
  is_split : Bool
  split_parts : List Fs.Path
  mmproj_path : Option Fs.Path
deriving DecidableEq

/-- A directory tree: what `walk_dir` traverses.  Files carry their byte
contents so the model's `quick_scan` can read them. -/
inductive FsTree where
  | file (name : String) (contents : List Nat)
  | dir (name : String) (children : List FsTree)

mutual

/-- `walk_dir` from `reader.rs`: recurse into directories, collect files
with extension `gguf` (paired with their contents, standing for the later
`fs::File::open`). -/
def walk_dir (base : Fs.Path) : FsTree → List (Fs.Path × List Nat)
  | .file n c =>
    if Fs.ext_of_name n = some "gguf" then [(base ++ [n], c)] else []
  | .dir n ch => walk_dir_list (base ++ [n]) ch

def walk_dir_list (base : Fs.Path) : List FsTree → List (Fs.Path × List Nat)
  | [] => []
  | t :: ts => walk_dir base t ++ walk_dir_list base ts

end

/-- `c :: cs` starts with `pat` (char-level `str::starts_with`). -/
def starts_with_chars : List Char → List Char → Bool
  | _, [] => true
  | [], _ :: _ => false
  | c :: cs, p :: ps => c == p && starts_with_chars cs ps

/-- Char-level `str::contains` for a literal pattern. -/
def contains_chars : List Char → List Char → Bool
  | [], pat => pat.isEmpty
  | c :: cs, pat => starts_with_chars (c :: cs) pat || contains_chars cs pat

def str_contains (s pat : String) : Bool := contains_chars s.data pat.data

/-- `str::strip_suffix`. -/
def strip_suffix (s pat : String) : Option String :=
  if List.isSuffixOf pat.data s.data then
    some ⟨s.data.take (s.data.length - pat.data.length)⟩
  else none

/-- `str::split('-')` at the character level (kernel-computable, unlike
`String.splitOn`). -/
def split_on_char (sep : Char) : List Char → List (List Char)
  | [] => [[]]
  | c :: rest =>
    match split_on_char sep rest with
    | [] => [[]]
    | cur :: parts => if c = sep then [] :: cur :: parts else (c :: cur) :: parts

def split_on (s : String) (sep : Char) : List String :=
  (split_on_char sep s.data).map (fun l => ⟨l⟩)

/-- `join("-")` over components, at the character level. -/
def intercalate_chars (sep : Char) : List (List Char) → List Char
  | [] => []
  | [x] => x
  | x :: y :: rest => x ++ sep :: intercalate_chars sep (y :: rest)

def intercalate_hyphen (parts : List String) : String :=
  ⟨intercalate_chars '-' (parts.map String.data)⟩

/-- `char::is_ascii_digit` over a whole string (`all` is true on empty). -/
def is_digits (s : String) : Bool := s.data.all Char.isDigit

/-- `detect_split_base` from `reader.rs` (lines 239-259).  `rsplitn(4, '-')`
yields, from the right, the last three `-`-separated pieces and the joined
remainder; the base is that remainder. -/
def detect_split_base (filename : String) : Option String :=
  match strip_suffix filename ".gguf" with
  | none => none
  | some name =>
    let comps := split_on name '-'
    if comps.length ≥ 4 then
      let cr := comps.reverse
      if is_digits (cr.getD 0 "") && (cr.getD 1 "" == "of") && is_digits (cr.getD 2 "") then
        some (intercalate_hyphen (comps.take (comps.length - 3)))
      else none
    else none

/-- One pass of `str::trim_end_matches`' loop, with fuel for structural
recursion (each strip removes at least one character, so
`s.length + 1` is never exhausted). -/
def trim_end_loop : Nat → List Char → List Char → List Char
  | 0, cs, _ => cs
  | fuel + 1, cs, pat =>
    if pat.isEmpty then cs
    else if List.isSuffixOf pat cs then
      trim_end_loop fuel (cs.take (cs.length - pat.length)) pat
    else cs

/-- `str::trim_end_matches`: repeatedly strip the suffix. -/
def trim_end_matches (s pat : String) : String :=
  ⟨trim_end_loop (s.data.length + 1) s.data pat.data⟩

/-- ASCII model of `str::to_lowercase` (Unicode mappings outside ASCII are
not consumed by any property under verification). -/
def ascii_lower (c : Char) : Char :=
  if 'A' ≤ c ∧ c ≤ 'Z' then Char.ofNat (c.toNat + 32) else c

def lowercase_ascii (s : String) : String := ⟨s.data.map ascii_lower⟩

/-- `str::replace(' ', "-")` (a single-char pattern replaces per
character). -/
def replace_spaces (s : String) : String :=
  ⟨s.data.map (fun c => if c = ' ' then '-' else c)⟩

/-- `generate_model_id` from `reader.rs` (lines 261-267):
`file_stem → to_lowercase → replace(' ', "-")`. -/
def generate_model_id (path : Fs.Path) : String :=
  replace_spaces (lowercase_ascii (Fs.file_stem path))

/-- `seen_bases.get` (keys are inserted at most once, so the association
list lookup matches the `HashMap`). -/
def assoc_get (seen : List (String × Nat)) (base : String) : Option Nat :=
  (seen.find? (fun p => p.1 == base)).map (fun p => p.2)

/-- `entries[idx]` update. -/
def list_update {α : Type} : List α → Nat → (α → α) → List α
  | [], _, _ => []
  | x :: xs, 0, f => f x :: xs
  | x :: xs, i + 1, f => x :: list_update xs i f

/-- The fresh catalog entry `scan_directory` pushes for `path`
(`reader.rs`, lines 180-199). -/
def make_entry (path : Fs.Path) (contents : List Nat) (fname : String) : ModelEntry :=
  let scan := (quick_scan contents).toOption
  { id := generate_model_id path
    name := (scan.bind (fun s => s.name)).getD (ascii (trim_end_matches fname ".gguf"))
    path := path
    file_size := (scan.map (fun s => s.file_size)).getD 0
    architecture := scan.bind (fun s => s.architecture)
    quantization := scan.bind (fun s => s.file_type_name)
    context_length := scan.bind (fun s => s.context_length)
    is_split := false
    split_parts := [path]
    mmproj_path := none }

/-- Pass 1 of `scan_directory`: primary entries and split grouping. -/
def scan_pass1 : List (Fs.Path × List Nat) → List (String × Nat) → List ModelEntry →
    List ModelEntry
  | [], _, entries => entries
  | (path, contents) :: rest, seen, entries =>
    let fname := Fs.file_name path
    if str_contains fname "-mmproj-" || str_contains fname "_mmproj_" then
      scan_pass1 rest seen entries
    else
      match detect_split_base fname with
      | some base =>
        match assoc_get seen base with
        | some idx =>
          scan_pass1 rest seen
            (list_update entries idx
              (fun e => { e with split_parts := e.split_parts ++ [path], is_split := true }))
        | none =>
          scan_pass1 rest (seen ++ [(base, entries.length)])
            (entries ++ [make_entry path contents fname])
      | none => scan_pass1 rest seen (entries ++ [make_entry path contents fname])

/-- The inner `for entry in &mut entries` of pass 2: attach the companion to
the first same-directory entry without one. -/
def attach_mmproj : List ModelEntry → Option Fs.Path → Fs.Path → List ModelEntry
  | [], _, _ => []
  | e :: rest, par, mp =>
    if Fs.parent e.path == par && e.mmproj_path.isNone then
      { e with mmproj_path := some mp } :: rest
    else e :: attach_mmproj rest par mp

/-- Pass 2 of `scan_directory`: mmproj companion association. -/
def scan_pass2 : List (Fs.Path × List Nat) → List ModelEntry → List ModelEntry
  | [], entries => entries
  | (path, _) :: rest, entries =>
    let fname := Fs.file_name path
    if str_contains fname "-mmproj-" || str_contains fname "_mmproj_" then
      scan_pass2 rest (attach_mmproj entries (Fs.parent path) path)
    else scan_pass2 rest entries

/-- `scan_directory` from `reader.rs` (lines 153-219), over a modelled
directory tree: walk, sort the discovered paths, then the two passes.
The Rust version returns `Result` only because directory iteration can
fail; the tree model cannot, so the result is the plain catalog. -/
def scan_directory (dir : Fs.Path) (children : List FsTree) : List ModelEntry :=
  let gguf_files := Fs.sort_le (fun a b => Fs.path_le a.1 b.1) (walk_dir_list dir children)
  scan_pass2 gguf_files (scan_pass1 gguf_files [] [])

/-- A well-formed single-entry GGUF file: magic, version 3, 0 tensors,
1 metadata entry (`key = "a"`, type `Uint8`, value 42); 38 bytes. -/
def gfile : List Nat :=
  [0x47, 0x47, 0x55, 0x46] ++ [3, 0, 0, 0] ++
  [0, 0, 0, 0, 0, 0, 0, 0] ++ [1, 0, 0, 0, 0, 0, 0, 0] ++
  [1, 0, 0, 0, 0, 0, 0, 0] ++ [0x61] ++ [0, 0, 0, 0] ++ [42]

/-- The spec's scan-grouping directory: two split parts and one mmproj
companion (contents empty: a failed `quick_scan` is non-fatal to the
scan). -/
def mGroupDir : List FsTree :=
  [.file "m-00001-of-00002.gguf" [],
   .file "m-00002-of-00002.gguf" [],
   .file "m-mmproj-f16.gguf" []]

end GGUF

namespace GGUF

/-- The two errors that signal "the stream ran out": the `UnexpectedEof`
I/O error (tolerated by the quick-scan loop) and `TruncatedHeader` (the
blanket mapping `read_u32`/`read_u64` apply to short reads). -/
def EofLike (e : GGUFError) : Prop :=
  e = .TruncatedHeader ∨ e = .IoError .UnexpectedEof

/-- The result `quick_scan` produces on the 38-byte file `gfile`
(version 3, no tensors, one `Uint8` metadata entry under key `"a"`). -/
def gfileScanResult : QuickScanResult :=
  { file_size := 38
    header := ⟨3, 0, 1⟩
    architecture := none
    name := none
    file_type := none
    file_type_name := none
    context_length := none
    embedding_length := none
    chat_template := none
    metadata := [⟨[0x61], .Uint8, .Uint8 42⟩] }

end GGUF

namespace Gen

/-- The loop emits a (possibly empty) run of `Token` events followed by a
single terminal event, provided the fuel exceeds the remaining token
budget. -/
theorem genLoop_shape (d : Decoder) (req : GenerateRequest) (pt : Nat) :
    ∀ fuel completion text n_cur, req.max_tokens - completion < fuel →
      ∃ (ts : List String) (t : GenerateEvent), genLoop d req pt fuel completion text n_cur =
          ts.map GenerateEvent.Token ++ [t] ∧ is_terminal t = true := by
  intro fuel
  induction fuel with
  | zero => intro completion text n_cur h; omega
  | succ fuel ih =>
    intro completion text n_cur h
    rw [genLoop]
    split
    · exact ⟨[], _, rfl, rfl⟩
    · split
      · exact ⟨[], _, rfl, rfl⟩
      · split
        · exact ⟨[], _, rfl, rfl⟩
        · split
          · exact ⟨[d.piece (d.sample completion)], _, rfl, rfl⟩
          · split
            · exact ⟨[d.piece (d.sample completion)], _, rfl, rfl⟩
            · obtain ⟨ts, t, heq, hterm⟩ :=
                ih (completion + 1)
                  (text ++ (d.piece (d.sample completion)).data) (n_cur + 1) (by omega)
              exact ⟨d.piece (d.sample completion) :: ts, t, by rw [heq]; rfl, hterm⟩

/-- The loop's result does not depend on the fuel once the fuel exceeds the
remaining token budget. -/
theorem genLoop_fuel_irrel (d : Decoder) (req : GenerateRequest) (pt : Nat) :
    ∀ fuel fuel' completion text n_cur,
      req.max_tokens - completion < fuel → req.max_tokens - completion < fuel' →
      genLoop d req pt fuel completion text n_cur =
        genLoop d req pt fuel' completion text n_cur := by
  intro fuel
  induction fuel with
  | zero => intro fuel' completion text n_cur h; omega
  | succ fuel ih =>
    intro fuel' completion text n_cur h h'
    match fuel', h' with
    | fuel' + 1, h' =>
      rw [genLoop, genLoop]
      split
      · rfl
      · split
        · rfl
        · split
          · rfl
          · rename_i hmax _ _
            split
            · rfl
            · split
              · rfl
              · rw [ih fuel' (completion + 1) _ _ (by omega) (by omega)]

/-- C7: in a generation run that is not cancelled by receiver drop, the
event trace is a run of `Token` events followed by exactly one terminal
event (`Done` or `Error`), which is last; hence the number of events is the
number of `Token` events plus one, and exactly one event of the trace is
terminal. -/
theorem generate_single_terminal (d : Decoder) (req : GenerateRequest) :
    ∃ (ts : List String) (t : GenerateEvent),
      generate_blocking d req = ts.map GenerateEvent.Token ++ [t] ∧
      is_terminal t = true ∧
      (generate_blocking d req).length = ts.length + 1 ∧
      (generate_blocking d req).countP (fun e => is_terminal e) = 1 := by
  have key : ∃ (ts : List String) (t : GenerateEvent),
      generate_blocking d req = ts.map GenerateEvent.Token ++ [t] ∧
      is_terminal t = true := by
    unfold generate_blocking
    match d.prompt_decode with
    | some e => exact ⟨[], _, rfl, rfl⟩
    | none => exact genLoop_shape d req _ _ 0 [] _ (by omega)
  obtain ⟨ts, t, heq, hterm⟩ := key
  refine ⟨ts, t, heq, hterm, ?_, ?_⟩
  · rw [heq]; simp
  · rw [heq]
    rw [List.countP_append, List.countP_map]
    have h0 : List.countP ((fun e => is_terminal e) ∘ GenerateEvent.Token) ts = 0 := by
      apply List.countP_eq_zero.mpr
      intro a _
      simp [is_terminal]
    rw [h0]
    simp [hterm]

/-- C8: with `max_tokens = 0` and a successful prompt decode, the first (and
only) event is `Done{Length}` with `completion_tokens = 0`. -/
theorem generate_max_tokens_zero (d : Decoder) (req : GenerateRequest)
    (hmax : req.max_tokens = 0) (hp : d.prompt_decode = none) :
    generate_blocking d req = [.Done .Length req.tokens.length 0] := by
  unfold generate_blocking
  rw [hp, genLoop]
  simp [hmax]

/-- Witness for `generate_max_tokens_zero` at a concrete decoder/request. -/
theorem generate_max_tokens_zero_witness :
    zeroReq.max_tokens = 0 ∧ mockDecoder.prompt_decode = none ∧
      generate_blocking mockDecoder zeroReq = [.Done .Length zeroReq.tokens.length 0] :=
  ⟨rfl, rfl, generate_max_tokens_zero mockDecoder zeroReq rfl rfl⟩

/-- C1 counterexample: with `stop_words = ["b"]` the trace is
`Token("a"), Done{StopWord("b"), 2, 2}` — it is *not*
`Token("a"), Token("b"), Done{...}`: the loop emits `Done` and breaks
before reaching the `Token` send for the piece that completed the match
(`generate.rs` lines 121-142). -/
theorem stop_word_trace_counterexample :
    generate_blocking mockDecoder stopReq ≠
      [.Token "a", .Token "b", .Done (.StopWord "b") 2 2] := by
  decide

/-- C1 amended: in the stop-word scenario the emitted events are
`Token("a"), Done{StopWord("b"), prompt_tokens = 2, completion_tokens = 2}`;
the token whose piece completes the stop-word match is consumed by the
match (counted in `completion_tokens`) but not emitted as a `Token`
event. -/
theorem stop_word_trace_amended :
    generate_blocking mockDecoder stopReq =
      [.Token "a", .Done (.StopWord "b") 2 2] := by
  decide

end Gen

namespace MM

theorem slots_remove_sublist (sl : List (String × ModelSlot)) (id : String) :
    List.Sublist (slots_remove sl id) sl :=
  List.filter_sublist sl

theorem evict_loop_sublist (max : Nat) :
    ∀ fuel sl, List.Sublist (evict_loop max fuel sl) sl := by
  intro fuel
  induction fuel with
  | zero => intro sl; exact List.Sublist.refl sl
  | succ fuel ih =>
    intro sl
    rw [evict_loop]
    split
    · split
      · exact List.Sublist.trans (ih _) (slots_remove_sublist sl _)
      · exact List.Sublist.refl sl
    · exact List.Sublist.refl sl

theorem maybe_evict_slots_sublist (cfg : ModelManagerConfig) (st : MMState) :
    List.Sublist (maybe_evict cfg st).slots st.slots := by
  unfold maybe_evict
  split
  · exact List.Sublist.refl _
  · exact evict_loop_sublist _ _ _

theorem min_by_last_used_spec :
    ∀ (l : List (String × ModelSlot)),
      (min_by_last_used l = none → l = []) ∧
      (∀ x, min_by_last_used l = some x →
        x ∈ l ∧ ∀ q ∈ l, x.2.last_used ≤ q.2.last_used) := by
  intro l
  induction l with
  | nil => exact ⟨fun _ => rfl, fun x hx => by simp [min_by_last_used] at hx⟩
  | cons p rest ih =>
    constructor
    · intro hn
      rw [min_by_last_used] at hn
      split at hn
      · simp at hn
      · split at hn <;> simp at hn
    · intro x hx
      rw [min_by_last_used] at hx
      split at hx
      · rename_i hrest
        obtain (rfl : p = x) := by simpa using hx
        have hre : rest = [] := ih.1 hrest
        subst hre
        exact ⟨List.mem_singleton_self p, by intro q hq; simp at hq; subst hq; exact le_refl _⟩
      · rename_i y hrest
        have hy := (ih.2 y hrest)
        split at hx
        · rename_i hle
          obtain (rfl : p = x) := by simpa using hx
          refine ⟨List.mem_cons_self _ _, ?_⟩
          intro q hq
          rcases List.mem_cons.mp hq with rfl | hq
          · exact le_refl _
          · exact le_trans hle (hy.2 q hq)
        · rename_i hle
          obtain (rfl : y = x) := by simpa using hx
          refine ⟨List.mem_cons_of_mem _ hy.1, ?_⟩
          intro q hq
          rcases List.mem_cons.mp hq with rfl | hq
          · omega
          · exact hy.2 q hq

theorem pick_victim_some_spec (sl : List (String × ModelSlot)) (id : String)
    (h : pick_victim sl = some id) :
    ∃ s, (id, s) ∈ sl ∧ s.status = .Ready ∧ no_external_refs s = true ∧
      ∀ q ∈ sl, q.2.status = .Ready → no_external_refs q.2 = true →
        s.last_used ≤ q.2.last_used := by
  unfold pick_victim at h
  cases hm : min_by_last_used
      (sl.filter (fun p => p.2.status == .Ready && no_external_refs p.2)) with
  | none => rw [hm] at h; simp at h
  | some x =>
    rw [hm] at h
    obtain ⟨hmem, hmin⟩ := (min_by_last_used_spec _).2 x hm
    have hx : x ∈ sl ∧ (x.2.status == ModelStatus.Ready && no_external_refs x.2) = true :=
      List.mem_filter.mp hmem
    obtain ⟨hsl, hcond⟩ := hx
    simp only [Bool.and_eq_true, beq_iff_eq] at hcond
    have hid : x.1 = id := by simpa using h
    refine ⟨x.2, by rw [← hid]; exact hsl, hcond.1, hcond.2, ?_⟩
    intro q hq hqs hqr
    exact hmin q (List.mem_filter.mpr ⟨hq, by simp [hqs, hqr]⟩)

theorem pick_victim_none_spec (sl : List (String × ModelSlot))
    (h : pick_victim sl = none) :
    ∀ q ∈ sl, ¬(q.2.status = .Ready ∧ no_external_refs q.2 = true) := by
  unfold pick_victim at h
  cases hm : min_by_last_used
      (sl.filter (fun p => p.2.status == .Ready && no_external_refs p.2)) with
  | some x => rw [hm] at h; simp at h
  | none =>
    have hnil := (min_by_last_used_spec _).1 hm
    intro q hq ⟨hqs, hqr⟩
    have : q ∈ sl.filter (fun p => p.2.status == .Ready && no_external_refs p.2) :=
      List.mem_filter.mpr ⟨hq, by simp [hqs, hqr]⟩
    rw [hnil] at this
    simp at this

theorem length_remove_lt (sl : List (String × ModelSlot)) (id : String) (s : ModelSlot)
    (h : (id, s) ∈ sl) : (slots_remove sl id).length < sl.length := by
  induction sl with
  | nil => simp at h
  | cons p rest ih =>
    rcases List.mem_cons.mp h with rfl | hmem
    · simp only [slots_remove, List.filter]
      have : (!((id, s).1 == id)) = false := by simp
      rw [this]
      calc (List.filter (fun p => !(p.1 == id)) rest).length
          ≤ rest.length := List.length_filter_le _ _
        _ < (List.cons (id, s) rest).length := by simp
    · simp only [slots_remove, List.filter] at *
      cases hb : (!(p.1 == id)) with
      | false => calc (List.filter (fun p => !(p.1 == id)) rest).length
            ≤ rest.length := List.length_filter_le _ _
          _ < (p :: rest).length := by simp
      | true => simpa using Nat.succ_lt_succ (ih hmem)

theorem evict_loop_post (max : Nat) (hmax : max ≠ 0) :
    ∀ fuel sl, sl.length ≤ fuel →
      ready_loading_count (evict_loop max fuel sl) < max ∨
        pick_victim (evict_loop max fuel sl) = none := by
  intro fuel
  induction fuel with
  | zero =>
    intro sl hlen
    have : sl = [] := List.eq_nil_of_length_eq_zero (by omega)
    subst this
    left
    simp [evict_loop, ready_loading_count]
    omega
  | succ fuel ih =>
    intro sl hlen
    rw [evict_loop]
    split
    · rename_i hge
      cases hp : pick_victim sl with
      | some id =>
        obtain ⟨s, hmem, -⟩ := pick_victim_some_spec sl id hp
        exact ih _ (by have := length_remove_lt sl id s hmem; omega)
      | none => right; exact hp
    · rename_i hlt
      left
      omega

theorem keys_nodup_unique (sl : List (String × ModelSlot)) (id : String) (a b : ModelSlot)
    (hnd : (sl.map Prod.fst).Nodup) (ha : (id, a) ∈ sl) (hb : (id, b) ∈ sl) : a = b := by
  induction sl with
  | nil => simp at ha
  | cons p rest ih =>
    simp only [List.map_cons, List.nodup_cons] at hnd
    rcases List.mem_cons.mp ha with ha' | ha' <;> rcases List.mem_cons.mp hb with hb' | hb'
    · exact congrArg Prod.snd (ha'.trans hb'.symm)
    · have hp1 : p.1 = id := by rw [← ha']
      exact absurd (List.mem_map_of_mem Prod.fst hb') (hp1 ▸ hnd.1)
    · have hp1 : p.1 = id := by rw [← hb']
      exact absurd (List.mem_map_of_mem Prod.fst ha') (hp1 ▸ hnd.1)
    · exact ih hnd.2 ha' hb'

theorem evict_loop_keeps_pinned (max : Nat) :
    ∀ fuel sl id s h, (sl.map Prod.fst).Nodup → (id, s) ∈ sl → s.loaded = some h →
      h.ext_refs ≠ 0 → (id, s) ∈ evict_loop max fuel sl := by
  intro fuel
  induction fuel with
  | zero => intro sl id s h _ hmem _ _; exact hmem
  | succ fuel ih =>
    intro sl id s h hnd hmem hld href
    rw [evict_loop]
    split
    · cases hp : pick_victim sl with
      | some vid =>
        have hne : vid ≠ id := by
          intro heq
          subst heq
          obtain ⟨s', hmem', hst', hr', -⟩ := pick_victim_some_spec sl vid hp
          have : s' = s := keys_nodup_unique sl vid s' s hnd hmem' hmem
          subst this
          rw [no_external_refs, hld] at hr'
          simp at hr'
          exact href hr'
        have hmem2 : (id, s) ∈ slots_remove sl vid :=
          List.mem_filter.mpr ⟨hmem, by simp; exact fun hc => hne hc.symm⟩
        have hnd2 : ((slots_remove sl vid).map Prod.fst).Nodup :=
          List.Nodup.sublist (List.Sublist.map Prod.fst (slots_remove_sublist sl vid)) hnd
        exact ih _ id s h hnd2 hmem2 hld href
      | none => exact hmem
    · exact hmem

/-- C3: the LRU eviction policy of `maybe_evict`/`load`.
(1) A Ready slot whose handle has external owners (shared-owner count `> 1`)
is never evicted.  (2) With `max_models > 0`, after `maybe_evict` either the
`Ready + Loading` count is below `max_models` or no eligible victim remains.
(3) A selected victim is a Ready slot with no external references whose
`last_used` is minimal among all such slots; (4) when no victim is eligible
`pick_victim` is `none` (and, by (5), a load still proceeds: with a
successful backend outcome `load` always returns `Ok`).  (6) The concrete
scenario: `max_models = 2`, load A, load B, touch A, load C ends with B's
slot removed and A, C loaded. -/
theorem maybe_evict_lru_spec :
    (∀ (cfg : ModelManagerConfig) (st : MMState) (id : String) (s : ModelSlot) (h : Handle),
        (st.slots.map Prod.fst).Nodup → (id, s) ∈ st.slots → s.loaded = some h →
        h.ext_refs ≠ 0 → (id, s) ∈ (maybe_evict cfg st).slots) ∧
    (∀ (cfg : ModelManagerConfig) (st : MMState), cfg.max_models ≠ 0 →
        ready_loading_count (maybe_evict cfg st).slots < cfg.max_models ∨
        pick_victim (maybe_evict cfg st).slots = none) ∧
    (∀ (sl : List (String × ModelSlot)) (id : String), pick_victim sl = some id →
        ∃ s, (id, s) ∈ sl ∧ s.status = .Ready ∧ no_external_refs s = true ∧
          ∀ q ∈ sl, q.2.status = .Ready → no_external_refs q.2 = true →
            s.last_used ≤ q.2.last_used) ∧
    (∀ (sl : List (String × ModelSlot)), pick_victim sl = none →
        ∀ q ∈ sl, ¬(q.2.status = .Ready ∧ no_external_refs q.2 = true)) ∧
    (∀ (cfg : ModelManagerConfig) (st : MMState) (path : Fs.Path) (err : String)
        (er now : Nat), ∃ h, (load cfg st path true err er now).1 = .ok h) ∧
    (slots_get lruScenario.slots "B" = none ∧ is_loaded lruScenario "A" = true ∧
      is_loaded lruScenario "C" = true) := by
  refine ⟨?_, ?_, pick_victim_some_spec, pick_victim_none_spec, ?_, by decide⟩
  · intro cfg st id s h hnd hmem hld href
    unfold maybe_evict
    split
    · exact hmem
    · exact evict_loop_keeps_pinned _ _ _ id s h hnd hmem hld href
  · intro cfg st hmax
    unfold maybe_evict
    split
    · rename_i h0; exact absurd h0 hmax
    · exact evict_loop_post cfg.max_models hmax _ _ (le_refl _)
  · intro cfg st path err er now
    simp only [load]
    split
    · exact ⟨_, rfl⟩
    · exact ⟨_, rfl⟩

/-- Witness for `maybe_evict_lru_spec`: a pinned Ready slot (shared-owner
count 2) survives `maybe_evict` even at capacity. -/
theorem maybe_evict_lru_spec_witness :
    (([("X", (⟨.Ready, some ⟨"X", [], 1⟩, 0⟩ : ModelSlot))] :
        List (String × ModelSlot)).map Prod.fst).Nodup ∧
    ("X", (⟨.Ready, some ⟨"X", [], 1⟩, 0⟩ : ModelSlot)) ∈
      (maybe_evict ⟨1, 0⟩ ⟨[("X", ⟨.Ready, some ⟨"X", [], 1⟩, 0⟩)], []⟩).slots :=
  ⟨by decide,
    maybe_evict_lru_spec.1 ⟨1, 0⟩ ⟨[("X", ⟨.Ready, some ⟨"X", [], 1⟩, 0⟩)], []⟩
      "X" ⟨.Ready, some ⟨"X", [], 1⟩, 0⟩ ⟨"X", [], 1⟩ (by decide) (by decide) rfl
      (by decide)⟩

end MM

namespace MM

theorem slots_insert_mem (sl : List (String × ModelSlot)) (id : String) (v : ModelSlot) :
    ∀ p ∈ slots_insert sl id v, p = (id, v) ∨ p ∈ sl := by
  induction sl with
  | nil => intro p hp; simp [slots_insert] at hp; left; exact hp
  | cons q rest ih =>
    intro p hp
    simp only [slots_insert] at hp
    split at hp
    · rcases List.mem_cons.mp hp with rfl | hmem
      · exact Or.inl rfl
      · exact Or.inr (List.mem_cons_of_mem q hmem)
    · rcases List.mem_cons.mp hp with rfl | hmem
      · exact Or.inr (List.mem_cons_self _ _)
      · rcases ih p hmem with h | h
        · exact Or.inl h
        · exact Or.inr (List.mem_cons_of_mem q h)

theorem slots_insert_nodup (sl : List (String × ModelSlot)) (id : String) (v : ModelSlot)
    (h : (sl.map Prod.fst).Nodup) : ((slots_insert sl id v).map Prod.fst).Nodup := by
  induction sl with
  | nil => simp [slots_insert]
  | cons q rest ih =>
    simp only [List.map_cons, List.nodup_cons] at h
    simp only [slots_insert]
    split
    · rename_i hqi
      simp only [List.map_cons, List.nodup_cons]
      have hq : q.1 = id := by simpa using hqi
      exact ⟨hq ▸ h.1, h.2⟩
    · rename_i hqi
      simp only [List.map_cons, List.nodup_cons]
      refine ⟨?_, ih h.2⟩
      intro hmem
      rw [List.mem_map] at hmem
      obtain ⟨p, hp, hfst⟩ := hmem
      rcases slots_insert_mem rest id v p hp with rfl | hmem'
      · exact hqi (by rw [← hfst]; simp)
      · exact h.1 (hfst ▸ List.mem_map_of_mem Prod.fst hmem')

theorem WF_of_slots_sublist (st : MMState) (sl : List (String × ModelSlot))
    (dirs : List Fs.Path) (hsub : List.Sublist sl st.slots) (hwf : WF st) :
    WF ⟨sl, dirs⟩ := by
  refine ⟨List.Nodup.sublist (List.Sublist.map Prod.fst hsub) hwf.1, ?_⟩
  intro p hp
  exact hwf.2 p (hsub.subset hp)

theorem keys_touch (st : MMState) (id : String) (now : Nat) :
    (touch st id now).slots.map Prod.fst = st.slots.map Prod.fst := by
  simp only [touch]
  rw [List.map_map]
  apply List.map_congr_left
  intro p _
  by_cases hp : (p.1 == id) = true <;> simp [Function.comp, hp]

theorem WF_touch (st : MMState) (id : String) (now : Nat) (h : WF st) :
    WF (touch st id now) := by
  constructor
  · rw [keys_touch]; exact h.1
  · intro p hp
    simp only [touch, List.mem_map] at hp
    obtain ⟨q, hq, rfl⟩ := hp
    have hinv := h.2 q hq
    by_cases hqi : (q.1 == id) = true <;> simp only [hqi, if_true, if_false] <;>
      [skip; exact hinv]
    exact ⟨fun hs => hinv.1 hs, fun hs => hinv.2 hs⟩

theorem WF_maybe_evict (cfg : ModelManagerConfig) (st : MMState) (h : WF st) :
    WF (maybe_evict cfg st) := by
  have := WF_of_slots_sublist st (maybe_evict cfg st).slots (maybe_evict cfg st).model_dirs
    (maybe_evict_slots_sublist cfg st) h
  exact this

theorem WF_load (cfg : ModelManagerConfig) (st : MMState) (path : Fs.Path)
    (ok : Bool) (err : String) (er now : Nat) (h : WF st) :
    WF (load cfg st path ok err er now).2 := by
  simp only [load]
  split
  · exact WF_touch st _ now h
  · have h1 : WF (maybe_evict cfg st) := WF_maybe_evict cfg st h
    have h2 : WF ⟨slots_insert (maybe_evict cfg st).slots (Fs.file_stem path)
        ⟨.Loading, none, now⟩, (maybe_evict cfg st).model_dirs⟩ := by
      refine ⟨slots_insert_nodup _ _ _ h1.1, ?_⟩
      intro p hp
      rcases slots_insert_mem _ _ _ p hp with rfl | hmem
      · exact ⟨by intro hs; simp at hs, fun _ => rfl⟩
      · exact h1.2 p hmem
    split
    · -- backend success: mark Ready, then maybe register the parent dir
      have h3 : WF ⟨slots_insert (slots_insert (maybe_evict cfg st).slots (Fs.file_stem path)
          ⟨.Loading, none, now⟩) (Fs.file_stem path)
          ⟨.Ready, some ⟨Fs.file_stem path, path, er⟩, now⟩,
          (maybe_evict cfg st).model_dirs⟩ := by
        refine ⟨slots_insert_nodup _ _ _ h2.1, ?_⟩
        intro p hp
        rcases slots_insert_mem _ _ _ p hp with rfl | hmem
        · exact ⟨fun _ => rfl, by intro hs; simp at hs⟩
        · exact h2.2 p hmem
      split
      · -- add_model_dir leaves the slot map unchanged
        unfold add_model_dir
        split
        · exact h3
        · exact ⟨h3.1, h3.2⟩
      · exact h3
    · -- backend failure: the Loading slot is removed
      exact WF_of_slots_sublist _ _ _ (slots_remove_sublist _ _) h2

theorem WF_unload (st : MMState) (id : String) (h : WF st) : WF (unload st id).2 := by
  simp only [unload]
  split
  · exact WF_of_slots_sublist _ _ _ (slots_remove_sublist _ _) h
  · exact h

theorem WF_sweep_idle (st : MMState) (t now : Nat) (h : WF st) :
    WF (sweep_idle st t now) := by
  simp only [sweep_idle]
  split
  · exact h
  · exact WF_of_slots_sublist _ _ _ (List.filter_sublist _) h

theorem WF_step (cfg : ModelManagerConfig) (st : MMState) (op : MOp) (h : WF st) :
    WF (step cfg st op) := by
  cases op with
  | load path ok err er now => exact WF_load cfg st path ok err er now h
  | unload id => exact WF_unload st id h
  | touch id now => exact WF_touch st id now h
  | sweep_idle t now => exact WF_sweep_idle st t now h
  | evict => exact WF_maybe_evict cfg st h

theorem WF_run (cfg : ModelManagerConfig) :
    ∀ (ops : List MOp) (st : MMState), WF st → WF (run cfg st ops) := by
  intro ops
  induction ops with
  | nil => intro st h; exact h
  | cons op rest ih =>
    intro st h
    exact ih (step cfg st op) (WF_step cfg st op h)

/-- C4: after any sequence of `load`, `unload`, `touch`, `sweep_idle` and
eviction operations from a fresh manager, every slot satisfies
`status = Ready → handle bound`, `status = Loading → handle empty`, and no
two slots share an id (the `WF` predicate). -/
theorem slot_invariants (cfg : ModelManagerConfig) (dirs : List Fs.Path) (ops : List MOp) :
    WF (run cfg (new dirs) ops) :=
  WF_run cfg ops (new dirs) ⟨List.nodup_nil, by intro p hp; simp [new] at hp⟩

theorem slots_get_remove_self (sl : List (String × ModelSlot)) (id : String) :
    slots_get (slots_remove sl id) id = none := by
  have hf : List.find? (fun p => p.1 == id) (slots_remove sl id) = none := by
    apply List.find?_eq_none.mpr
    intro x hx
    have hmem := (List.mem_filter.mp hx).2
    simp only [Bool.not_eq_true'] at hmem
    simp [hmem]
  unfold slots_get
  rw [hf]
  rfl

/-- C5: when the backend load fails, `load` returns the error and removes
the slot entirely: afterwards the slot map has no entry under the path's
stem, `is_loaded` is false for it, and `slot_info` has no row with that
id. -/
theorem load_failure_removes_slot (cfg : ModelManagerConfig) (st : MMState)
    (path : Fs.Path) (err : String) (er now : Nat) (e : String)
    (hfail : (load cfg st path false err er now).1 = .error e) :
    slots_get (load cfg st path false err er now).2.slots (Fs.file_stem path) = none ∧
    is_loaded (load cfg st path false err er now).2 (Fs.file_stem path) = false ∧
    ∀ info ∈ slot_info (load cfg st path false err er now).2,
      info.id ≠ Fs.file_stem path := by
  revert hfail
  simp only [load]
  split
  · intro hfail; exact absurd hfail (by simp)
  · intro _
    rw [if_neg (by decide : ¬(false = true))]
    refine ⟨slots_get_remove_self _ _, ?_, ?_⟩
    · simp only [is_loaded, slots_get_remove_self]
      rfl
    · intro info hinfo
      simp only [slot_info, List.mem_map] at hinfo
      obtain ⟨p, hp, rfl⟩ := hinfo
      have hmem := (List.mem_filter.mp hp).2
      simp only [Bool.not_eq_true'] at hmem
      simpa using hmem

/-- Witness for `load_failure_removes_slot`: a failing load of `A.gguf` on a
fresh manager returns the error and leaves no `"A"` slot behind. -/
theorem load_failure_removes_slot_witness :
    (load cfg2 (new []) pathA false "boom" 0 1).1 = .error "boom" ∧
    slots_get (load cfg2 (new []) pathA false "boom" 0 1).2.slots (Fs.file_stem pathA) = none ∧
    is_loaded (load cfg2 (new []) pathA false "boom" 0 1).2 (Fs.file_stem pathA) = false ∧
    ∀ info ∈ slot_info (load cfg2 (new []) pathA false "boom" 0 1).2,
      info.id ≠ Fs.file_stem pathA :=
  ⟨rfl, load_failure_removes_slot cfg2 (new []) pathA "boom" 0 1 "boom" rfl⟩

/-- C6 (code evaluation): the interval expression
`idle_timeout_secs.max(30).min(idle_timeout_secs)` in `spawn_idle_checker`
reduces to `idle_timeout_secs` itself, so for `idle_timeout_secs = 5` the
sweeper ticks every 5 seconds, not every `max(30, 5) = 30`; for 0 the
sweeper is not spawned. -/
theorem idle_interval_code_value :
    spawn_idle_checker_interval 5 = some 5 ∧
    ¬ spawn_idle_checker_interval 5 = some 30 ∧
    ∀ t, spawn_idle_checker_interval t = if t = 0 then none else some t := by
  refine ⟨rfl, by decide, ?_⟩
  intro t
  unfold spawn_idle_checker_interval
  split
  · rfl
  · congr 1
    omega

end MM

namespace GGUF

/-- C9: scanning a directory holding exactly the three files
`m-00001-of-00002.gguf`, `m-00002-of-00002.gguf`, `m-mmproj-f16.gguf`
yields one catalog entry with both split parts in order, `is_split = true`
and the mmproj companion attached. -/
theorem scan_grouping_scenario :
    scan_directory ["models"] mGroupDir =
      [{ id := "m-00001-of-00002"
         name := ascii "m-00001-of-00002"
         path := ["models", "m-00001-of-00002.gguf"]
         file_size := 0
         architecture := none
         quantization := none
         context_length := none
         is_split := true
         split_parts := [["models", "m-00001-of-00002.gguf"],
                         ["models", "m-00002-of-00002.gguf"]]
         mmproj_path := some ["models", "m-mmproj-f16.gguf"] }] := by
  decide

end GGUF

namespace MM

theorem slots_get_cons (q : String × ModelSlot) (rest : List (String × ModelSlot))
    (x : String) :
    slots_get (q :: rest) x =
      if (q.1 == x) = true then some q.2 else slots_get rest x := by
  simp only [slots_get, List.find?]
  cases h : (q.1 == x) <;> simp [h]

theorem slots_get_insert_self (sl : List (String × ModelSlot)) (id : String) (v : ModelSlot) :
    slots_get (slots_insert sl id v) id = some v := by
  induction sl with
  | nil => simp [slots_insert, slots_get_cons]
  | cons p rest ih =>
    simp only [slots_insert]
    split
    · rw [slots_get_cons]
      simp
    · rename_i hne
      rw [slots_get_cons, if_neg hne]
      exact ih

theorem slots_get_insert_other (sl : List (String × ModelSlot)) (id x : String)
    (v : ModelSlot) (hne : x ≠ id) :
    slots_get (slots_insert sl id v) x = slots_get sl x := by
  have hix : ((id == x) = true) → False := by
    simp only [beq_iff_eq]
    exact fun hc => hne hc.symm
  induction sl with
  | nil =>
    simp only [slots_insert]
    rw [slots_get_cons, if_neg hix]
  | cons p rest ih =>
    simp only [slots_insert]
    split
    · rename_i hpi
      have hpi' : p.1 = id := by simpa using hpi
      rw [slots_get_cons, slots_get_cons, if_neg hix,
        if_neg (by rw [hpi']; exact hix)]
    · rw [slots_get_cons, slots_get_cons]
      by_cases hpx : (p.1 == x) = true
      · rw [if_pos hpx, if_pos hpx]
      · rw [if_neg hpx, if_neg hpx]
        exact ih

theorem slots_get_touch (st : MMState) (id x : String) (now : Nat) :
    slots_get (touch st id now).slots x =
      if (x == id) = true
      then (slots_get st.slots x).map (fun s => { s with last_used := now })
      else slots_get st.slots x := by
  simp only [touch, slots_get]
  rw [List.find?_map]
  have hpred : ((fun q : String × ModelSlot => q.1 == x) ∘
      (fun q : String × ModelSlot =>
        if q.1 == id then (q.1, { q.2 with last_used := now }) else q)) =
      (fun q : String × ModelSlot => q.1 == x) := by
    funext q
    by_cases h : (q.1 == id) = true <;> simp [Function.comp, h]
  rw [hpred]
  cases hf : List.find? (fun q : String × ModelSlot => q.1 == x) st.slots with
  | none => cases hxi : (x == id) <;> simp [hxi]
  | some q =>
    have hqx : q.1 = x := by simpa using List.find?_some hf
    by_cases hxi : (x == id) = true
    · have hqi : q.1 = id := by
        simp only [beq_iff_eq] at hxi
        rw [hqx, hxi]
      simp [hxi, hqi]
    · have hqi : ¬(q.1 = id) := by
        simp only [beq_iff_eq] at hxi
        rw [hqx]
        exact hxi
      simp [hxi, hqi]

theorem add_model_dir_slots (st : MMState) (dir : Fs.Path) :
    (add_model_dir st dir).slots = st.slots := by
  unfold add_model_dir
  split <;> rfl

theorem slots_get_none_of_not_mem (sl : List (String × ModelSlot)) (x : String)
    (h : ∀ p ∈ sl, (p.1 == x) = false) : slots_get sl x = none := by
  unfold slots_get
  rw [List.find?_eq_none.mpr (by intro p hp; simp [h p hp])]
  rfl

theorem slots_get_none_mem (sl : List (String × ModelSlot)) (x : String)
    (h : slots_get sl x = none) : ∀ p ∈ sl, (p.1 == x) = false := by
  intro p hp
  unfold slots_get at h
  cases hfind : List.find? (fun q : String × ModelSlot => q.1 == x) sl with
  | some q => rw [hfind] at h; exact absurd h (by simp)
  | none =>
    have := List.find?_eq_none.mp hfind p hp
    simpa using this

theorem match_parent_slots (p : Fs.Path) (st : MMState) :
    (match Fs.parent p with
      | some par => add_model_dir st par
      | none => st).slots = st.slots := by
  cases Fs.parent p with
  | none => rfl
  | some par => exact add_model_dir_slots st par

end MM

/-- C10: `load` keys its slot by the file stem verbatim while the scanner's
catalog id lowercases the stem and replaces spaces with hyphens.  For any
path whose stem contains an ASCII uppercase letter or a space:
(1) the slot id differs from the catalog id;
(2) if no slot is registered under the catalog id beforehand, `is_loaded`
on the catalog id is still false immediately after a successful load of the
path; and (3) the stem itself *is* loaded afterwards. -/
theorem slot_id_verbatim_vs_catalog_id (p : Fs.Path)
    (hcase : (Fs.file_stem p).data.any
      (fun c => decide ('A' ≤ c ∧ c ≤ 'Z') || c = ' ') = true) :
    Fs.file_stem p ≠ GGUF.generate_model_id p ∧
    (∀ (cfg : MM.ModelManagerConfig) (st : MM.MMState) (err : String) (er now : Nat),
        MM.slots_get st.slots (GGUF.generate_model_id p) = none →
        MM.is_loaded (MM.load cfg st p true err er now).2 (GGUF.generate_model_id p) = false) ∧
    (∀ (cfg : MM.ModelManagerConfig) (st : MM.MMState) (err : String) (er now : Nat),
        MM.is_loaded (MM.load cfg st p true err er now).2 (Fs.file_stem p) = true) := by
  have key : Fs.file_stem p ≠ GGUF.generate_model_id p := by
    intro heq
    obtain ⟨c, hc, hcp⟩ := List.any_eq_true.mp hcase
    have hdata : (Fs.file_stem p).data =
        ((Fs.file_stem p).data.map GGUF.ascii_lower).map
          (fun c => if c = ' ' then '-' else c) := by
      have := congrArg String.data heq
      simpa [GGUF.generate_model_id, GGUF.replace_spaces, GGUF.lowercase_ascii] using this
    rw [List.map_map] at hdata
    have haux : ∀ (l : List Char) (f : Char → Char), l.map f = l → ∀ x ∈ l, f x = x := by
      intro l f
      induction l with
      | nil => intro _ x hx; simp at hx
      | cons a rest ih =>
        intro hmap x hx
        simp only [List.map_cons, List.cons.injEq] at hmap
        rcases List.mem_cons.mp hx with rfl | hx'
        · exact hmap.1
        · exact ih hmap.2 x hx'
    have hfix := haux _ _ hdata.symm c hc
    simp only [Function.comp] at hfix
    have hcp' : ('A' ≤ c ∧ c ≤ 'Z') ∨ c = ' ' := by simpa using hcp
    rcases hcp' with hup | hsp
    · have hrange : 65 ≤ c.toNat ∧ c.toNat ≤ 90 := ⟨hup.1, hup.2⟩
      have hlower : (GGUF.ascii_lower c).toNat = c.toNat + 32 := by
        have hv : Nat.isValidChar (c.toNat + 32) := Or.inl (by omega)
        rw [GGUF.ascii_lower, if_pos hup, Char.ofNat, dif_pos hv]
        rfl
      by_cases hsp' : GGUF.ascii_lower c = ' '
      · rw [hsp'] at hlower
        have hsp32 : (' ' : Char).toNat = 32 := rfl
        omega
      · rw [if_neg hsp'] at hfix
        have := congrArg Char.toNat hfix
        omega
    · subst hsp
      have hl : GGUF.ascii_lower ' ' = ' ' := by decide
      rw [hl, if_pos rfl] at hfix
      exact absurd hfix (by decide)
  refine ⟨key, ?_, ?_⟩
  · intro cfg st err er now habs
    have hne : GGUF.generate_model_id p ≠ Fs.file_stem p := fun h => key h.symm
    simp only [MM.load]
    split
    · -- already loaded: only a touch happens
      simp only [MM.is_loaded]
      rw [MM.slots_get_touch, if_neg (by simp; exact fun h => hne h), habs]
      rfl
    · rw [if_pos trivial]
      have habs2 : ∀ q ∈ (MM.maybe_evict cfg st).slots,
          (q.1 == GGUF.generate_model_id p) = false := fun q hq =>
        MM.slots_get_none_mem st.slots _ habs q
          ((MM.maybe_evict_slots_sublist cfg st).subset hq)
      simp only [MM.is_loaded]
      rw [MM.match_parent_slots]
      rw [MM.slots_get_insert_other _ _ _ _ hne, MM.slots_get_insert_other _ _ _ _ hne]
      rw [MM.slots_get_none_of_not_mem _ _ habs2]
      rfl
  · intro cfg st err er now
    simp only [MM.load]
    split
    · -- already loaded: the slot under the stem is Ready and stays Ready
      rename_i h heq
      simp only [MM.is_loaded]
      rw [MM.slots_get_touch, if_pos (by simp)]
      revert heq
      cases hs : MM.slots_get st.slots (Fs.file_stem p) with
      | none => intro heq; exact absurd heq (by simp)
      | some s =>
        intro heq
        have heq' : (if (s.status == MM.ModelStatus.Ready) = true
            then s.loaded else none) = some h := heq
        by_cases hr : (s.status == MM.ModelStatus.Ready) = true
        · simp [hr]
        · rw [if_neg hr] at heq'
          exact absurd heq' (by simp)
    · -- fresh load: the Ready slot is inserted under the stem
      rw [if_pos trivial]
      simp only [MM.is_loaded]
      rw [MM.match_parent_slots, MM.slots_get_insert_self]
      rfl

/-- Witness for `slot_id_verbatim_vs_catalog_id`: loading `Foo Bar.gguf` on
a fresh manager registers slot id `"Foo Bar"`, while the catalog id is
`"foo-bar"` and reports not-loaded. -/
theorem slot_id_verbatim_vs_catalog_id_witness :
    Fs.file_stem ["Foo Bar.gguf"] ≠ GGUF.generate_model_id ["Foo Bar.gguf"] ∧
    MM.is_loaded (MM.load MM.cfg2 (MM.new []) ["Foo Bar.gguf"] true "" 0 1).2
      (GGUF.generate_model_id ["Foo Bar.gguf"]) = false ∧
    MM.is_loaded (MM.load MM.cfg2 (MM.new []) ["Foo Bar.gguf"] true "" 0 1).2
      (Fs.file_stem ["Foo Bar.gguf"]) = true :=
  ⟨(slot_id_verbatim_vs_catalog_id ["Foo Bar.gguf"] (by decide)).1,
   (slot_id_verbatim_vs_catalog_id ["Foo Bar.gguf"] (by decide)).2.1
     MM.cfg2 (MM.new []) "" 0 1 rfl,
   (slot_id_verbatim_vs_catalog_id ["Foo Bar.gguf"] (by decide)).2.2
     MM.cfg2 (MM.new []) "" 0 1⟩

namespace GGUF

theorem read_exact_err (data : List Nat) (n pos : Nat) (e : GGUFError)
    (h : read_exact data n pos = .error e) : e = .IoError .UnexpectedEof := by
  unfold read_exact at h
  split at h
  · exact absurd h (by simp)
  · simpa using h.symm

theorem read_exact_agree (full : List Nat) (m n pos : Nat) (bs : List Nat) (q : Nat)
    (h : read_exact (full.take m) n pos = .ok (bs, q)) : read_exact full n pos = .ok (bs, q) := by
  unfold read_exact at h ⊢
  split at h
  · rename_i hle
    rw [List.length_take] at hle
    have hle2 : pos + n ≤ full.length := by omega
    have hlem : pos + n ≤ m := by omega
    rw [if_pos hle2]
    have hbytes : ((full.take m).drop pos).take n = (full.drop pos).take n := by
      rw [List.drop_take, List.take_take]
      congr 1
      omega
    rw [← hbytes]
    exact h
  · exact absurd h (by simp)

theorem read_scalar_err (data : List Nat) (n pos : Nat) (e : GGUFError)
    (h : read_scalar data n pos = .error e) : e = .IoError .UnexpectedEof := by
  unfold read_scalar at h
  cases hre : read_exact data n pos with
  | ok x => rw [hre] at h; exact absurd h (by simp)
  | error e' =>
    rw [hre] at h
    have : e = e' := by simpa using h.symm
    rw [this]
    exact read_exact_err data n pos e' hre

theorem read_scalar_agree (full : List Nat) (m n pos : Nat) (v q : Nat)
    (h : read_scalar (full.take m) n pos = .ok (v, q)) : read_scalar full n pos = .ok (v, q) := by
  unfold read_scalar at h ⊢
  cases hre : read_exact (full.take m) n pos with
  | error e' => rw [hre] at h; exact absurd h (by simp)
  | ok x =>
    rw [hre] at h
    rw [read_exact_agree full m n pos x.1 x.2 hre]
    exact h

theorem read_u32_err (data : List Nat) (pos : Nat) (e : GGUFError)
    (h : read_u32 data pos = .error e) : e = .TruncatedHeader := by
  unfold read_u32 at h
  cases hre : read_exact data 4 pos with
  | ok x => rw [hre] at h; exact absurd h (by simp)
  | error e' => rw [hre] at h; simpa using h.symm

theorem read_u32_agree (full : List Nat) (m pos : Nat) (v q : Nat)
    (h : read_u32 (full.take m) pos = .ok (v, q)) : read_u32 full pos = .ok (v, q) := by
  unfold read_u32 at h ⊢
  cases hre : read_exact (full.take m) 4 pos with
  | error e' => rw [hre] at h; exact absurd h (by simp)
  | ok x =>
    rw [hre] at h
    rw [read_exact_agree full m 4 pos x.1 x.2 hre]
    exact h

theorem read_u64_err (data : List Nat) (pos : Nat) (e : GGUFError)
    (h : read_u64 data pos = .error e) : e = .TruncatedHeader := by
  unfold read_u64 at h
  cases hre : read_exact data 8 pos with
  | ok x => rw [hre] at h; exact absurd h (by simp)
  | error e' => rw [hre] at h; simpa using h.symm

theorem read_u64_agree (full : List Nat) (m pos : Nat) (v q : Nat)
    (h : read_u64 (full.take m) pos = .ok (v, q)) : read_u64 full pos = .ok (v, q) := by
  unfold read_u64 at h ⊢
  cases hre : read_exact (full.take m) 8 pos with
  | error e' => rw [hre] at h; exact absurd h (by simp)
  | ok x =>
    rw [hre] at h
    rw [read_exact_agree full m 8 pos x.1 x.2 hre]
    exact h

theorem read_string_err (full : List Nat) (m pos : Nat) (e : GGUFError)
    (h : read_string (full.take m) pos = .error e) (hne : ¬ EofLike e) :
    read_string full pos = .error e := by
  unfold read_string at h ⊢
  cases hlen : read_u64 (full.take m) pos with
  | error e' =>
    rw [hlen] at h
    have he : e = e' := by simpa using h.symm
    exact absurd (Or.inl (he.trans (read_u64_err _ _ _ hlen))) hne
  | ok x =>
    obtain ⟨len, p₁⟩ := x
    rw [hlen] at h
    simp only [] at h
    rw [read_u64_agree full m pos len p₁ hlen]
    simp only []
    split at h
    · rename_i hbig
      rw [if_pos hbig]
      exact h
    · rename_i hbig
      rw [if_neg hbig]
      cases hbs : read_exact (full.take m) len p₁ with
      | ok y => rw [hbs] at h; exact absurd h (by simp)
      | error e' =>
        rw [hbs] at h
        have he : e = e' := by simpa using h.symm
        exact absurd (Or.inr (he.trans (read_exact_err _ _ _ _ hbs))) hne

theorem read_string_agree (full : List Nat) (m pos : Nat) (bs : List Nat) (q : Nat)
    (h : read_string (full.take m) pos = .ok (bs, q)) : read_string full pos = .ok (bs, q) := by
  unfold read_string at h ⊢
  cases hlen : read_u64 (full.take m) pos with
  | error e' => rw [hlen] at h; exact absurd h (by simp)
  | ok x =>
    obtain ⟨len, p₁⟩ := x
    rw [hlen] at h
    simp only [] at h
    rw [read_u64_agree full m pos len p₁ hlen]
    simp only []
    split at h
    · exact absurd h (by simp)
    · rename_i hbig
      rw [if_neg hbig]
      cases hbs : read_exact (full.take m) len p₁ with
      | error e' => rw [hbs] at h; exact absurd h (by simp)
      | ok y =>
        rw [hbs] at h
        rw [read_exact_agree full m len p₁ y.1 y.2 hbs]
        exact h

end GGUF

namespace GGUF

theorem read_u8_err (data : List Nat) (pos : Nat) (e : GGUFError)
    (h : read_u8 data pos = .error e) : e = .IoError .UnexpectedEof :=
  read_scalar_err data 1 pos e h

theorem read_u8_agree (full : List Nat) (m pos : Nat) (v q : Nat)
    (h : read_u8 (full.take m) pos = .ok (v, q)) : read_u8 full pos = .ok (v, q) :=
  read_scalar_agree full m 1 pos v q h

theorem read_u16_err (data : List Nat) (pos : Nat) (e : GGUFError)
    (h : read_u16 data pos = .error e) : e = .IoError .UnexpectedEof :=
  read_scalar_err data 2 pos e h

theorem read_u16_agree (full : List Nat) (m pos : Nat) (v q : Nat)
    (h : read_u16 (full.take m) pos = .ok (v, q)) : read_u16 full pos = .ok (v, q) :=
  read_scalar_agree full m 2 pos v q h

theorem read_i8_err (data : List Nat) (pos : Nat) (e : GGUFError)
    (h : read_i8 data pos = .error e) : e = .IoError .UnexpectedEof := by
  unfold read_i8 at h
  cases hr : read_scalar data 1 pos with
  | ok x => rw [hr] at h; obtain ⟨a, b⟩ := x; exact absurd h (by simp)
  | error e' =>
    rw [hr] at h
    have he : e' = e := by simpa using h
    exact he ▸ read_scalar_err data 1 pos e' hr

theorem read_i8_agree (full : List Nat) (m pos : Nat) (v : Int) (q : Nat)
    (h : read_i8 (full.take m) pos = .ok (v, q)) : read_i8 full pos = .ok (v, q) := by
  unfold read_i8 at h ⊢
  cases hr : read_scalar (full.take m) 1 pos with
  | error e' => rw [hr] at h; exact absurd h (by simp)
  | ok x =>
    rw [hr] at h
    rw [read_scalar_agree full m 1 pos x.1 x.2 hr]
    exact h

theorem read_i16_err (data : List Nat) (pos : Nat) (e : GGUFError)
    (h : read_i16 data pos = .error e) : e = .IoError .UnexpectedEof := by
  unfold read_i16 at h
  cases hr : read_scalar data 2 pos with
  | ok x => rw [hr] at h; obtain ⟨a, b⟩ := x; exact absurd h (by simp)
  | error e' =>
    rw [hr] at h
    have he : e' = e := by simpa using h
    exact he ▸ read_scalar_err data 2 pos e' hr

theorem read_i16_agree (full : List Nat) (m pos : Nat) (v : Int) (q : Nat)
    (h : read_i16 (full.take m) pos = .ok (v, q)) : read_i16 full pos = .ok (v, q) := by
  unfold read_i16 at h ⊢
  cases hr : read_scalar (full.take m) 2 pos with
  | error e' => rw [hr] at h; exact absurd h (by simp)
  | ok x =>
    rw [hr] at h
    rw [read_scalar_agree full m 2 pos x.1 x.2 hr]
    exact h

theorem read_i32_err (data : List Nat) (pos : Nat) (e : GGUFError)
    (h : read_i32 data pos = .error e) : e = .IoError .UnexpectedEof := by
  unfold read_i32 at h
  cases hr : read_scalar data 4 pos with
  | ok x => rw [hr] at h; obtain ⟨a, b⟩ := x; exact absurd h (by simp)
  | error e' =>
    rw [hr] at h
    have he : e' = e := by simpa using h
    exact he ▸ read_scalar_err data 4 pos e' hr

theorem read_i32_agree (full : List Nat) (m pos : Nat) (v : Int) (q : Nat)
    (h : read_i32 (full.take m) pos = .ok (v, q)) : read_i32 full pos = .ok (v, q) := by
  unfold read_i32 at h ⊢
  cases hr : read_scalar (full.take m) 4 pos with
  | error e' => rw [hr] at h; exact absurd h (by simp)
  | ok x =>
    rw [hr] at h
    rw [read_scalar_agree full m 4 pos x.1 x.2 hr]
    exact h

theorem read_i64_err (data : List Nat) (pos : Nat) (e : GGUFError)
    (h : read_i64 data pos = .error e) : e = .IoError .UnexpectedEof := by
  unfold read_i64 at h
  cases hr : read_scalar data 8 pos with
  | ok x => rw [hr] at h; obtain ⟨a, b⟩ := x; exact absurd h (by simp)
  | error e' =>
    rw [hr] at h
    have he : e' = e := by simpa using h
    exact he ▸ read_scalar_err data 8 pos e' hr

theorem read_i64_agree (full : List Nat) (m pos : Nat) (v : Int) (q : Nat)
    (h : read_i64 (full.take m) pos = .ok (v, q)) : read_i64 full pos = .ok (v, q) := by
  unfold read_i64 at h ⊢
  cases hr : read_scalar (full.take m) 8 pos with
  | error e' => rw [hr] at h; exact absurd h (by simp)
  | ok x =>
    rw [hr] at h
    rw [read_scalar_agree full m 8 pos x.1 x.2 hr]
    exact h

theorem read_bool_err (data : List Nat) (pos : Nat) (e : GGUFError)
    (h : read_bool data pos = .error e) : e = .IoError .UnexpectedEof := by
  unfold read_bool at h
  cases hr : read_u8 data pos with
  | ok x => rw [hr] at h; obtain ⟨a, b⟩ := x; exact absurd h (by simp)
  | error e' =>
    rw [hr] at h
    have he : e' = e := by simpa using h
    exact he ▸ read_u8_err data pos e' hr

theorem read_bool_agree (full : List Nat) (m pos : Nat) (v : Bool) (q : Nat)
    (h : read_bool (full.take m) pos = .ok (v, q)) : read_bool full pos = .ok (v, q) := by
  unfold read_bool at h ⊢
  cases hr : read_u8 (full.take m) pos with
  | error e' => rw [hr] at h; exact absurd h (by simp)
  | ok x =>
    rw [hr] at h
    rw [read_u8_agree full m pos x.1 x.2 hr]
    exact h

theorem read_f32_err (data : List Nat) (pos : Nat) (e : GGUFError)
    (h : read_f32 data pos = .error e) : e = .IoError .UnexpectedEof :=
  read_exact_err data 4 pos e h

theorem read_f32_agree (full : List Nat) (m pos : Nat) (v : List Nat) (q : Nat)
    (h : read_f32 (full.take m) pos = .ok (v, q)) : read_f32 full pos = .ok (v, q) :=
  read_exact_agree full m 4 pos v q h

theorem read_f64_err (data : List Nat) (pos : Nat) (e : GGUFError)
    (h : read_f64 data pos = .error e) : e = .IoError .UnexpectedEof :=
  read_exact_err data 8 pos e h

theorem read_f64_agree (full : List Nat) (m pos : Nat) (v : List Nat) (q : Nat)
    (h : read_f64 (full.take m) pos = .ok (v, q)) : read_f64 full pos = .ok (v, q) :=
  read_exact_agree full m 8 pos v q h

end GGUF

namespace GGUF

/-- Truncation lemma for `read_value`/`read_elems` at a shared fuel: a run
on a byte-level truncation of `full` that succeeds, or fails with an error
other than `TruncatedHeader`/`UnexpectedEof`, produces the same result on
`full` itself. -/
theorem read_value_take_agree (full : List Nat) (m : Nat) : ∀ fuel,
    (∀ t pos v q, read_value (full.take m) fuel t pos = .ok (v, q) →
      read_value full fuel t pos = .ok (v, q)) ∧
    (∀ t pos e, read_value (full.take m) fuel t pos = .error e → ¬ EofLike e →
      read_value full fuel t pos = .error e) ∧
    (∀ t c pos vs q, read_elems (full.take m) fuel t c pos = .ok (vs, q) →
      read_elems full fuel t c pos = .ok (vs, q)) ∧
    (∀ t c pos e, read_elems (full.take m) fuel t c pos = .error e → ¬ EofLike e →
      read_elems full fuel t c pos = .error e) := by
  intro fuel
  induction fuel with
  | zero =>
    refine ⟨?_, ?_, ?_, ?_⟩
    · intro t pos v q h
      have h0 : read_value (full.take m) 0 t pos =
          Except.error GGUFError.TruncatedHeader := rfl
      rw [h0] at h
      exact absurd h (by simp)
    · intro t pos e h hne
      have h0 : read_value (full.take m) 0 t pos =
          Except.error GGUFError.TruncatedHeader := rfl
      rw [h0] at h
      have he : GGUFError.TruncatedHeader = e := by simpa using h
      exact absurd (Or.inl he.symm) hne
    · intro t c pos vs q h
      have h0 : read_elems (full.take m) 0 t c pos =
          Except.error GGUFError.TruncatedHeader := rfl
      rw [h0] at h
      exact absurd h (by simp)
    · intro t c pos e h hne
      have h0 : read_elems (full.take m) 0 t c pos =
          Except.error GGUFError.TruncatedHeader := rfl
      rw [h0] at h
      have he : GGUFError.TruncatedHeader = e := by simpa using h
      exact absurd (Or.inl he.symm) hne
  | succ fuel ih =>
    obtain ⟨ihva, ihve, ihea, ihee⟩ := ih
    refine ⟨?_, ?_, ?_, ?_⟩
    · intro t pos v q h
      cases t
      case Array =>
        simp only [read_value] at h ⊢
        cases h32 : read_u32 (full.take m) pos with
        | error e' => rw [h32] at h; exact absurd h (by simp)
        | ok x =>
          obtain ⟨tRaw, p₁⟩ := x
          rw [h32] at h
          simp only [] at h
          rw [read_u32_agree full m pos tRaw p₁ h32]
          simp only []
          cases htf : GGUFValueType.try_from tRaw with
          | error e' => rw [htf] at h; exact absurd h (by simp)
          | ok elem_t =>
            rw [htf] at h
            simp only [] at h ⊢
            cases h64 : read_u64 (full.take m) p₁ with
            | error e' => rw [h64] at h; exact absurd h (by simp)
            | ok y =>
              obtain ⟨count, p₂⟩ := y
              rw [h64] at h
              simp only [] at h
              rw [read_u64_agree full m p₁ count p₂ h64]
              simp only []
              split at h
              · exact absurd h (by simp)
              · rename_i hcnt
                rw [if_neg hcnt]
                cases hel : read_elems (full.take m) fuel elem_t count p₂ with
                | error e' => rw [hel] at h; exact absurd h (by simp)
                | ok z =>
                  rw [hel] at h
                  rw [ihea elem_t count p₂ z.1 z.2 hel]
                  exact h
      case Uint8 =>
        simp only [read_value] at h ⊢
        cases hr : read_u8 (full.take m) pos with
        | error e' => rw [hr] at h; exact absurd h (by simp)
        | ok x =>
          rw [hr] at h
          rw [read_u8_agree full m pos x.1 x.2 hr]
          exact h
      case Int8 =>
        simp only [read_value] at h ⊢
        cases hr : read_i8 (full.take m) pos with
        | error e' => rw [hr] at h; exact absurd h (by simp)
        | ok x =>
          rw [hr] at h
          rw [read_i8_agree full m pos x.1 x.2 hr]
          exact h
      case Uint16 =>
        simp only [read_value] at h ⊢
        cases hr : read_u16 (full.take m) pos with
        | error e' => rw [hr] at h; exact absurd h (by simp)
        | ok x =>
          rw [hr] at h
          rw [read_u16_agree full m pos x.1 x.2 hr]
          exact h
      case Int16 =>
        simp only [read_value] at h ⊢
        cases hr : read_i16 (full.take m) pos with
        | error e' => rw [hr] at h; exact absurd h (by simp)
        | ok x =>
          rw [hr] at h
          rw [read_i16_agree full m pos x.1 x.2 hr]
          exact h
      case Uint32 =>
        simp only [read_value] at h ⊢
        cases hr : read_u32 (full.take m) pos with
        | error e' => rw [hr] at h; exact absurd h (by simp)
        | ok x =>
          rw [hr] at h
          rw [read_u32_agree full m pos x.1 x.2 hr]
          exact h
      case Int32 =>
        simp only [read_value] at h ⊢
        cases hr : read_i32 (full.take m) pos with
        | error e' => rw [hr] at h; exact absurd h (by simp)
        | ok x =>
          rw [hr] at h
          rw [read_i32_agree full m pos x.1 x.2 hr]
          exact h
      case Float32 =>
        simp only [read_value] at h ⊢
        cases hr : read_f32 (full.take m) pos with
        | error e' => rw [hr] at h; exact absurd h (by simp)
        | ok x =>
          rw [hr] at h
          rw [read_f32_agree full m pos x.1 x.2 hr]
          exact h
      case Bool =>
        simp only [read_value] at h ⊢
        cases hr : read_bool (full.take m) pos with
        | error e' => rw [hr] at h; exact absurd h (by simp)
        | ok x =>
          rw [hr] at h
          rw [read_bool_agree full m pos x.1 x.2 hr]
          exact h
      case Uint64 =>
        simp only [read_value] at h ⊢
        cases hr : read_u64 (full.take m) pos with
        | error e' => rw [hr] at h; exact absurd h (by simp)
        | ok x =>
          rw [hr] at h
          rw [read_u64_agree full m pos x.1 x.2 hr]
          exact h
      case Int64 =>
        simp only [read_value] at h ⊢
        cases hr : read_i64 (full.take m) pos with
        | error e' => rw [hr] at h; exact absurd h (by simp)
        | ok x =>
          rw [hr] at h
          rw [read_i64_agree full m pos x.1 x.2 hr]
          exact h
      case Float64 =>
        simp only [read_value] at h ⊢
        cases hr : read_f64 (full.take m) pos with
        | error e' => rw [hr] at h; exact absurd h (by simp)
        | ok x =>
          rw [hr] at h
          rw [read_f64_agree full m pos x.1 x.2 hr]
          exact h
      case String =>
        simp only [read_value] at h ⊢
        cases hr : read_string (full.take m) pos with
        | error e' => rw [hr] at h; exact absurd h (by simp)
        | ok x =>
          rw [hr] at h
          rw [read_string_agree full m pos x.1 x.2 hr]
          exact h
    · intro t pos e h hne
      cases t
      case Array =>
        simp only [read_value] at h ⊢
        cases h32 : read_u32 (full.take m) pos with
        | error e' =>
          rw [h32] at h
          have he : e' = e := by simpa using h
          exact absurd (Or.inl (he ▸ read_u32_err _ pos e' h32)) hne
        | ok x =>
          obtain ⟨tRaw, p₁⟩ := x
          rw [h32] at h
          simp only [] at h
          rw [read_u32_agree full m pos tRaw p₁ h32]
          simp only []
          cases htf : GGUFValueType.try_from tRaw with
          | error e' =>
            rw [htf] at h
            simp only [] at h ⊢
            exact h
          | ok elem_t =>
            rw [htf] at h
            simp only [] at h ⊢
            cases h64 : read_u64 (full.take m) p₁ with
            | error e' =>
              rw [h64] at h
              have he : e' = e := by simpa using h
              exact absurd (Or.inl (he ▸ read_u64_err _ p₁ e' h64)) hne
            | ok y =>
              obtain ⟨count, p₂⟩ := y
              rw [h64] at h
              simp only [] at h
              rw [read_u64_agree full m p₁ count p₂ h64]
              simp only []
              split at h
              · rename_i hcnt
                rw [if_pos hcnt]
                exact h
              · rename_i hcnt
                rw [if_neg hcnt]
                cases hel : read_elems (full.take m) fuel elem_t count p₂ with
                | ok z =>
                  rw [hel] at h
                  obtain ⟨zs, zp⟩ := z
                  exact absurd h (by simp)
                | error e' =>
                  rw [hel] at h
                  have he : e' = e := by simpa using h
                  subst he
                  rw [ihee elem_t count p₂ e' hel hne]
      case Uint8 =>
        simp only [read_value] at h ⊢
        cases hr : read_u8 (full.take m) pos with
        | ok x =>
          rw [hr] at h
          obtain ⟨a, b⟩ := x
          exact absurd h (by simp)
        | error e' =>
          rw [hr] at h
          have he : e' = e := by simpa using h
          exact absurd (Or.inr (he ▸ read_u8_err _ pos e' hr)) hne
      case Int8 =>
        simp only [read_value] at h ⊢
        cases hr : read_i8 (full.take m) pos with
        | ok x =>
          rw [hr] at h
          obtain ⟨a, b⟩ := x
          exact absurd h (by simp)
        | error e' =>
          rw [hr] at h
          have he : e' = e := by simpa using h
          exact absurd (Or.inr (he ▸ read_i8_err _ pos e' hr)) hne
      case Uint16 =>
        simp only [read_value] at h ⊢
        cases hr : read_u16 (full.take m) pos with
        | ok x =>
          rw [hr] at h
          obtain ⟨a, b⟩ := x
          exact absurd h (by simp)
        | error e' =>
          rw [hr] at h
          have he : e' = e := by simpa using h
          exact absurd (Or.inr (he ▸ read_u16_err _ pos e' hr)) hne
      case Int16 =>
        simp only [read_value] at h ⊢
        cases hr : read_i16 (full.take m) pos with
        | ok x =>
          rw [hr] at h
          obtain ⟨a, b⟩ := x
          exact absurd h (by simp)
        | error e' =>
          rw [hr] at h
          have he : e' = e := by simpa using h
          exact absurd (Or.inr (he ▸ read_i16_err _ pos e' hr)) hne
      case Uint32 =>
        simp only [read_value] at h ⊢
        cases hr : read_u32 (full.take m) pos with
        | ok x =>
          rw [hr] at h
          obtain ⟨a, b⟩ := x
          exact absurd h (by simp)
        | error e' =>
          rw [hr] at h
          have he : e' = e := by simpa using h
          exact absurd (Or.inl (he ▸ read_u32_err _ pos e' hr)) hne
      case Int32 =>
        simp only [read_value] at h ⊢
        cases hr : read_i32 (full.take m) pos with
        | ok x =>
          rw [hr] at h
          obtain ⟨a, b⟩ := x
          exact absurd h (by simp)
        | error e' =>
          rw [hr] at h
          have he : e' = e := by simpa using h
          exact absurd (Or.inr (he ▸ read_i32_err _ pos e' hr)) hne
      case Float32 =>
        simp only [read_value] at h ⊢
        cases hr : read_f32 (full.take m) pos with
        | ok x =>
          rw [hr] at h
          obtain ⟨a, b⟩ := x
          exact absurd h (by simp)
        | error e' =>
          rw [hr] at h
          have he : e' = e := by simpa using h
          exact absurd (Or.inr (he ▸ read_f32_err _ pos e' hr)) hne
      case Bool =>
        simp only [read_value] at h ⊢
        cases hr : read_bool (full.take m) pos with
        | ok x =>
          rw [hr] at h
          obtain ⟨a, b⟩ := x
          exact absurd h (by simp)
        | error e' =>
          rw [hr] at h
          have he : e' = e := by simpa using h
          exact absurd (Or.inr (he ▸ read_bool_err _ pos e' hr)) hne
      case Uint64 =>
        simp only [read_value] at h ⊢
        cases hr : read_u64 (full.take m) pos with
        | ok x =>
          rw [hr] at h
          obtain ⟨a, b⟩ := x
          exact absurd h (by simp)
        | error e' =>
          rw [hr] at h
          have he : e' = e := by simpa using h
          exact absurd (Or.inl (he ▸ read_u64_err _ pos e' hr)) hne
      case Int64 =>
        simp only [read_value] at h ⊢
        cases hr : read_i64 (full.take m) pos with
        | ok x =>
          rw [hr] at h
          obtain ⟨a, b⟩ := x
          exact absurd h (by simp)
        | error e' =>
          rw [hr] at h
          have he : e' = e := by simpa using h
          exact absurd (Or.inr (he ▸ read_i64_err _ pos e' hr)) hne
      case Float64 =>
        simp only [read_value] at h ⊢
        cases hr : read_f64 (full.take m) pos with
        | ok x =>
          rw [hr] at h
          obtain ⟨a, b⟩ := x
          exact absurd h (by simp)
        | error e' =>
          rw [hr] at h
          have he : e' = e := by simpa using h
          exact absurd (Or.inr (he ▸ read_f64_err _ pos e' hr)) hne
      case String =>
        simp only [read_value] at h ⊢
        cases hr : read_string (full.take m) pos with
        | ok x =>
          rw [hr] at h
          obtain ⟨a, b⟩ := x
          exact absurd h (by simp)
        | error e' =>
          rw [hr] at h
          have he : e' = e := by simpa using h
          subst he
          rw [read_string_err full m pos e' hr hne]
    · intro t c pos vs q h
      cases c with
      | zero =>
        simp only [read_elems] at h ⊢
        exact h
      | succ c =>
        simp only [read_elems] at h ⊢
        cases hv : read_value (full.take m) fuel t pos with
        | error e' => rw [hv] at h; exact absurd h (by simp)
        | ok x =>
          obtain ⟨v₁, p₁⟩ := x
          rw [hv] at h
          simp only [] at h
          rw [ihva t pos v₁ p₁ hv]
          simp only []
          cases he2 : read_elems (full.take m) fuel t c p₁ with
          | error e' => rw [he2] at h; exact absurd h (by simp)
          | ok z =>
            rw [he2] at h
            rw [ihea t c p₁ z.1 z.2 he2]
            exact h
    · intro t c pos e h hne
      cases c with
      | zero =>
        simp only [read_elems] at h
        exact absurd h (by simp)
      | succ c =>
        simp only [read_elems] at h ⊢
        cases hv : read_value (full.take m) fuel t pos with
        | error e' =>
          rw [hv] at h
          have he : e' = e := by simpa using h
          subst he
          rw [ihve t pos e' hv hne]
        | ok x =>
          obtain ⟨v₁, p₁⟩ := x
          rw [hv] at h
          simp only [] at h
          rw [ihva t pos v₁ p₁ hv]
          simp only []
          cases he2 : read_elems (full.take m) fuel t c p₁ with
          | ok z =>
            rw [he2] at h
            obtain ⟨zs, zp⟩ := z
            exact absurd h (by simp)
          | error e' =>
            rw [he2] at h
            have he : e' = e := by simpa using h
            subst he
            rw [ihee t c p₁ e' he2 hne]

end GGUF

namespace GGUF

/-- Success and decisive (non-`EofLike`) failure of `read_value`/`read_elems`
are upward-monotone in the fuel. -/
theorem read_value_mono (data : List Nat) : ∀ fuel fuel', fuel ≤ fuel' →
    (∀ t pos v q, read_value data fuel t pos = .ok (v, q) →
      read_value data fuel' t pos = .ok (v, q)) ∧
    (∀ t pos e, read_value data fuel t pos = .error e → ¬ EofLike e →
      read_value data fuel' t pos = .error e) ∧
    (∀ t c pos vs q, read_elems data fuel t c pos = .ok (vs, q) →
      read_elems data fuel' t c pos = .ok (vs, q)) ∧
    (∀ t c pos e, read_elems data fuel t c pos = .error e → ¬ EofLike e →
      read_elems data fuel' t c pos = .error e) := by
  intro fuel
  induction fuel with
  | zero =>
    intro fuel' hle
    refine ⟨?_, ?_, ?_, ?_⟩
    · intro t pos v q h
      have h0 : read_value data 0 t pos = Except.error GGUFError.TruncatedHeader := rfl
      rw [h0] at h
      exact absurd h (by simp)
    · intro t pos e h hne
      have h0 : read_value data 0 t pos = Except.error GGUFError.TruncatedHeader := rfl
      rw [h0] at h
      have he : GGUFError.TruncatedHeader = e := by simpa using h
      exact absurd (Or.inl he.symm) hne
    · intro t c pos vs q h
      have h0 : read_elems data 0 t c pos = Except.error GGUFError.TruncatedHeader := rfl
      rw [h0] at h
      exact absurd h (by simp)
    · intro t c pos e h hne
      have h0 : read_elems data 0 t c pos = Except.error GGUFError.TruncatedHeader := rfl
      rw [h0] at h
      have he : GGUFError.TruncatedHeader = e := by simpa using h
      exact absurd (Or.inl he.symm) hne
  | succ fuel ih =>
    intro fuel' hle
    cases fuel' with
    | zero => omega
    | succ fuel'' =>
      obtain ⟨iva, ive, iea, iee⟩ := ih fuel'' (by omega)
      refine ⟨?_, ?_, ?_, ?_⟩
      · intro t pos v q h
        cases t
        case Array =>
          simp only [read_value] at h ⊢
          cases h32 : read_u32 data pos with
          | error e' => rw [h32] at h; exact absurd h (by simp)
          | ok x =>
            obtain ⟨tRaw, p₁⟩ := x
            rw [h32] at h
            simp only [] at h ⊢
            cases htf : GGUFValueType.try_from tRaw with
            | error e' => rw [htf] at h; exact absurd h (by simp)
            | ok elem_t =>
              rw [htf] at h
              simp only [] at h ⊢
              cases h64 : read_u64 data p₁ with
              | error e' => rw [h64] at h; exact absurd h (by simp)
              | ok y =>
                obtain ⟨count, p₂⟩ := y
                rw [h64] at h
                simp only [] at h ⊢
                split at h
                · exact absurd h (by simp)
                · rename_i hcnt
                  rw [if_neg hcnt]
                  cases hel : read_elems data fuel elem_t count p₂ with
                  | error e' => rw [hel] at h; exact absurd h (by simp)
                  | ok z =>
                    rw [hel] at h
                    rw [iea elem_t count p₂ z.1 z.2 hel]
                    exact h
        all_goals
          simp only [read_value] at h ⊢
          exact h
      · intro t pos e h hne
        cases t
        case Array =>
          simp only [read_value] at h ⊢
          cases h32 : read_u32 data pos with
          | error e' =>
            rw [h32] at h
            simp only [] at h ⊢
            exact h
          | ok x =>
            obtain ⟨tRaw, p₁⟩ := x
            rw [h32] at h
            simp only [] at h ⊢
            cases htf : GGUFValueType.try_from tRaw with
            | error e' =>
              rw [htf] at h
              simp only [] at h ⊢
              exact h
            | ok elem_t =>
              rw [htf] at h
              simp only [] at h ⊢
              cases h64 : read_u64 data p₁ with
              | error e' =>
                rw [h64] at h
                simp only [] at h ⊢
                exact h
              | ok y =>
                obtain ⟨count, p₂⟩ := y
                rw [h64] at h
                simp only [] at h ⊢
                split at h
                · rename_i hcnt
                  rw [if_pos hcnt]
                  exact h
                · rename_i hcnt
                  rw [if_neg hcnt]
                  cases hel : read_elems data fuel elem_t count p₂ with
                  | ok z =>
                    rw [hel] at h
                    obtain ⟨zs, zp⟩ := z
                    exact absurd h (by simp)
                  | error e' =>
                    rw [hel] at h
                    have he : e' = e := by simpa using h
                    subst he
                    rw [iee elem_t count p₂ e' hel hne]
        all_goals
          simp only [read_value] at h ⊢
          exact h
      · intro t c pos vs q h
        cases c with
        | zero =>
          simp only [read_elems] at h ⊢
          exact h
        | succ c =>
          simp only [read_elems] at h ⊢
          cases hv : read_value data fuel t pos with
          | error e' => rw [hv] at h; exact absurd h (by simp)
          | ok x =>
            obtain ⟨v₁, p₁⟩ := x
            rw [hv] at h
            simp only [] at h
            rw [iva t pos v₁ p₁ hv]
            simp only []
            cases he2 : read_elems data fuel t c p₁ with
            | error e' => rw [he2] at h; exact absurd h (by simp)
            | ok z =>
              rw [he2] at h
              rw [iea t c p₁ z.1 z.2 he2]
              exact h
      · intro t c pos e h hne
        cases c with
        | zero =>
          simp only [read_elems] at h
          exact absurd h (by simp)
        | succ c =>
          simp only [read_elems] at h ⊢
          cases hv : read_value data fuel t pos with
          | error e' =>
            rw [hv] at h
            have he : e' = e := by simpa using h
            subst he
            rw [ive t pos e' hv hne]
          | ok x =>
            obtain ⟨v₁, p₁⟩ := x
            rw [hv] at h
            simp only [] at h
            rw [iva t pos v₁ p₁ hv]
            simp only []
            cases he2 : read_elems data fuel t c p₁ with
            | ok z =>
              rw [he2] at h
              obtain ⟨zs, zp⟩ := z
              exact absurd h (by simp)
            | error e' =>
              rw [he2] at h
              have he : e' = e := by simpa using h
              subst he
              rw [iee t c p₁ e' he2 hne]

end GGUF

namespace GGUF

theorem take_fuel_le (full : List Nat) (m p : Nat) :
    2 * ((full.take m).length - p) + 2 ≤ 2 * (full.length - p) + 2 := by
  have hlen : (full.take m).length ≤ full.length := by
    rw [List.length_take]
    exact min_le_right _ _
  omega

theorem read_kv_agree (full : List Nat) (m pos : Nat) (kv : GGUFMetadataKV) (q : Nat)
    (h : read_kv (full.take m) pos = .ok (kv, q)) : read_kv full pos = .ok (kv, q) := by
  unfold read_kv at h ⊢
  cases hs : read_string (full.take m) pos with
  | error e' => rw [hs] at h; exact absurd h (by simp)
  | ok x =>
    obtain ⟨key, p₁⟩ := x
    rw [hs] at h
    simp only [] at h
    rw [read_string_agree full m pos key p₁ hs]
    simp only []
    cases h32 : read_u32 (full.take m) p₁ with
    | error e' => rw [h32] at h; exact absurd h (by simp)
    | ok y =>
      obtain ⟨traw, p₂⟩ := y
      rw [h32] at h
      simp only [] at h
      rw [read_u32_agree full m p₁ traw p₂ h32]
      simp only []
      cases htf : GGUFValueType.try_from traw with
      | error e' => rw [htf] at h; exact absurd h (by simp)
      | ok vt =>
        rw [htf] at h
        simp only [] at h ⊢
        cases hv : read_value (full.take m) (2 * ((full.take m).length - p₂) + 2) vt p₂ with
        | error e' => rw [hv] at h; exact absurd h (by simp)
        | ok z =>
          obtain ⟨value, p₃⟩ := z
          rw [hv] at h
          simp only [] at h
          have hfd : read_value full (2 * ((full.take m).length - p₂) + 2) vt p₂ =
              .ok (value, p₃) :=
            (read_value_take_agree full m _).1 vt p₂ value p₃ hv
          have hfD : read_value full (2 * (full.length - p₂) + 2) vt p₂ = .ok (value, p₃) :=
            (read_value_mono full _ _ (take_fuel_le full m p₂)).1 vt p₂ value p₃ hfd
          rw [hfD]
          exact h

theorem read_kv_err (full : List Nat) (m pos : Nat) (e : GGUFError)
    (h : read_kv (full.take m) pos = .error e) (hne : ¬ EofLike e) :
    read_kv full pos = .error e := by
  unfold read_kv at h ⊢
  cases hs : read_string (full.take m) pos with
  | error e' =>
    rw [hs] at h
    have he : e' = e := by simpa using h
    subst he
    rw [read_string_err full m pos e' hs hne]
  | ok x =>
    obtain ⟨key, p₁⟩ := x
    rw [hs] at h
    simp only [] at h
    rw [read_string_agree full m pos key p₁ hs]
    simp only []
    cases h32 : read_u32 (full.take m) p₁ with
    | error e' =>
      rw [h32] at h
      have he : e' = e := by simpa using h
      exact absurd (Or.inl (he ▸ read_u32_err _ p₁ e' h32)) hne
    | ok y =>
      obtain ⟨traw, p₂⟩ := y
      rw [h32] at h
      simp only [] at h
      rw [read_u32_agree full m p₁ traw p₂ h32]
      simp only []
      cases htf : GGUFValueType.try_from traw with
      | error e' =>
        rw [htf] at h
        simp only [] at h ⊢
        exact h
      | ok vt =>
        rw [htf] at h
        simp only [] at h ⊢
        cases hv : read_value (full.take m) (2 * ((full.take m).length - p₂) + 2) vt p₂ with
        | ok z =>
          rw [hv] at h
          obtain ⟨value, p₃⟩ := z
          exact absurd h (by simp)
        | error e' =>
          rw [hv] at h
          have he : e' = e := by simpa using h
          subst he
          have hfd : read_value full (2 * ((full.take m).length - p₂) + 2) vt p₂ =
              .error e' :=
            (read_value_take_agree full m _).2.1 vt p₂ e' hv hne
          have hfD : read_value full (2 * (full.length - p₂) + 2) vt p₂ = .error e' :=
            (read_value_mono full _ _ (take_fuel_le full m p₂)).2.1 vt p₂ e' hfd hne
          rw [hfD]

end GGUF

namespace GGUF

theorem kv_loop_acc (data : List Nat) (limit : Nat) :
    ∀ n pos acc L, kv_loop data limit n pos acc = .ok L →
      ∃ suf, acc.reverse ++ suf = L := by
  intro n
  induction n with
  | zero =>
    intro pos acc L h
    have h0 : kv_loop data limit 0 pos acc = .ok acc.reverse := rfl
    rw [h0] at h
    have hL : acc.reverse = L := by simpa using h
    exact ⟨[], by simp [hL]⟩
  | succ n ih =>
    intro pos acc L h
    simp only [kv_loop] at h
    split at h
    · have hL : acc.reverse = L := by simpa using h
      exact ⟨[], by simp [hL]⟩
    · cases hkv : read_kv data pos with
      | ok x =>
        obtain ⟨kv, p'⟩ := x
        rw [hkv] at h
        simp only [] at h
        obtain ⟨suf, hsuf⟩ := ih p' (kv :: acc) L h
        refine ⟨[kv] ++ suf, ?_⟩
        rw [← hsuf, List.reverse_cons]
        simp
      | error e' =>
        rw [hkv] at h
        cases e' with
        | IoError k =>
          cases k
          simp only [] at h
          have hL : acc.reverse = L := by simpa using h
          exact ⟨[], by simp [hL]⟩
        | InvalidMagic v => exact absurd h (by simp)
        | UnsupportedVersion v => exact absurd h (by simp)
        | InvalidValueType v => exact absurd h (by simp)
        | TruncatedHeader => exact absurd h (by simp)
        | Other s => exact absurd h (by simp)

theorem kv_loop_dichotomy (full : List Nat) (m limd limD : Nat) (hlim : limd ≤ limD) :
    ∀ n pos acc L,
      kv_loop full limD n pos acc = .ok L →
      (∃ L', kv_loop (full.take m) limd n pos acc = .ok L' ∧ ∃ suf, L' ++ suf = L) ∨
      kv_loop (full.take m) limd n pos acc = .error .TruncatedHeader := by
  intro n
  induction n with
  | zero =>
    intro pos acc L h
    have h0 : kv_loop full limD 0 pos acc = .ok acc.reverse := rfl
    rw [h0] at h
    have hL : acc.reverse = L := by simpa using h
    exact Or.inl ⟨acc.reverse, rfl, [], by simp [hL]⟩
  | succ n ih =>
    intro pos acc L h
    have hacc := kv_loop_acc full limD (n + 1) pos acc L h
    by_cases hbd : pos ≥ limd
    · left
      obtain ⟨suf, hsuf⟩ := hacc
      refine ⟨acc.reverse, ?_, suf, hsuf⟩
      simp only [kv_loop]
      rw [if_pos hbd]
    · have hbD : ¬ pos ≥ limD := by omega
      simp only [kv_loop] at h
      rw [if_neg hbD] at h
      cases hkv : read_kv (full.take m) pos with
      | ok x =>
        obtain ⟨kv, p'⟩ := x
        have hfkv : read_kv full pos = .ok (kv, p') := read_kv_agree full m pos kv p' hkv
        rw [hfkv] at h
        simp only [] at h
        rcases ih p' (kv :: acc) L h with ⟨L', hL', suf, hsuf⟩ | herr
        · left
          refine ⟨L', ?_, suf, hsuf⟩
          simp only [kv_loop]
          rw [if_neg hbd, hkv]
          simp only []
          exact hL'
        · right
          simp only [kv_loop]
          rw [if_neg hbd, hkv]
          simp only []
          exact herr
      | error e' =>
        cases e' with
        | IoError k =>
          cases k
          left
          obtain ⟨suf, hsuf⟩ := hacc
          refine ⟨acc.reverse, ?_, suf, hsuf⟩
          simp only [kv_loop]
          rw [if_neg hbd, hkv]
        | TruncatedHeader =>
          right
          simp only [kv_loop]
          rw [if_neg hbd, hkv]
        | InvalidMagic v =>
          have hne : ¬ EofLike (GGUFError.InvalidMagic v) := by simp [EofLike]
          have hfkv := read_kv_err full m pos _ hkv hne
          rw [hfkv] at h
          simp only [] at h
          exact absurd h (by simp)
        | UnsupportedVersion v =>
          have hne : ¬ EofLike (GGUFError.UnsupportedVersion v) := by simp [EofLike]
          have hfkv := read_kv_err full m pos _ hkv hne
          rw [hfkv] at h
          simp only [] at h
          exact absurd h (by simp)
        | InvalidValueType v =>
          have hne : ¬ EofLike (GGUFError.InvalidValueType v) := by simp [EofLike]
          have hfkv := read_kv_err full m pos _ hkv hne
          rw [hfkv] at h
          simp only [] at h
          exact absurd h (by simp)
        | Other s =>
          have hne : ¬ EofLike (GGUFError.Other s) := by simp [EofLike]
          have hfkv := read_kv_err full m pos _ hkv hne
          rw [hfkv] at h
          simp only [] at h
          exact absurd h (by simp)

/-- C2 (counterexample): `gfile` begins with a valid magic, version 3 and
both counts, and `quick_scan` accepts it in full; truncating it to 30
bytes cuts mid-entry (inside the first key's length field), yet
`quick_scan` returns `Err(TruncatedHeader)` rather than `Ok` with the
partial metadata, because `read_u64` maps the short read to
`TruncatedHeader`, which the metadata loop does not treat as a tolerated
EOF. -/
theorem quick_scan_truncation_counterexample :
    quick_scan gfile = .ok gfileScanResult ∧
    read_u32 (gfile.take 30) 0 = .ok (GGUF_MAGIC, 4) ∧
    read_u32 (gfile.take 30) 4 = .ok (3, 8) ∧
    read_u64 (gfile.take 30) 8 = .ok (0, 16) ∧
    read_u64 (gfile.take 30) 16 = .ok (1, 24) ∧
    quick_scan (gfile.take 30) = .error .TruncatedHeader :=
  ⟨rfl, rfl, rfl, rfl, rfl, rfl⟩

/-- C2 (amended): truncating any file that `quick_scan` accepts yields
either `Ok` with a prefix of the full file's metadata list, or
`Err(TruncatedHeader)` — never any other error.  (The original claim
that truncation mid-entry always yields `Ok` is refuted by
`quick_scan_truncation_counterexample`.) -/
theorem quick_scan_truncation_dichotomy (full : List Nat) (r : QuickScanResult) (m : Nat)
    (hok : quick_scan full = .ok r) :
    (∃ r', quick_scan (full.take m) = .ok r' ∧ ∃ suf, r'.metadata ++ suf = r.metadata) ∨
    quick_scan (full.take m) = .error .TruncatedHeader := by
  simp only [quick_scan] at hok
  cases h1 : read_u32 (full.take m) 0 with
  | error e =>
    right
    have he := read_u32_err _ _ _ h1
    subst he
    simp only [quick_scan]
    rw [h1]
  | ok x1 =>
    obtain ⟨magic, p₁⟩ := x1
    have h1f : read_u32 full 0 = Except.ok (magic, p₁) := read_u32_agree full m 0 magic p₁ h1
    rw [h1f] at hok
    simp only [] at hok
    by_cases hm : magic ≠ GGUF_MAGIC
    · rw [if_pos hm] at hok
      exact absurd hok (by simp)
    · rw [if_neg hm] at hok
      cases h2 : read_u32 (full.take m) p₁ with
      | error e =>
        right
        have he := read_u32_err _ _ _ h2
        subst he
        simp only [quick_scan]
        rw [h1]
        simp only []
        rw [if_neg hm, h2]
      | ok x2 =>
        obtain ⟨version, p₂⟩ := x2
        have h2f : read_u32 full p₁ = Except.ok (version, p₂) :=
          read_u32_agree full m p₁ version p₂ h2
        rw [h2f] at hok
        simp only [] at hok
        by_cases hv : version > GGUF_VERSION_MAX
        · rw [if_pos hv] at hok
          exact absurd hok (by simp)
        · rw [if_neg hv] at hok
          cases h3 : read_u64 (full.take m) p₂ with
          | error e =>
            right
            have he := read_u64_err _ _ _ h3
            subst he
            simp only [quick_scan]
            rw [h1]
            simp only []
            rw [if_neg hm, h2]
            simp only []
            rw [if_neg hv, h3]
          | ok x3 =>
            obtain ⟨tensor_count, p₃⟩ := x3
            have h3f : read_u64 full p₂ = Except.ok (tensor_count, p₃) :=
              read_u64_agree full m p₂ tensor_count p₃ h3
            rw [h3f] at hok
            simp only [] at hok
            cases h4 : read_u64 (full.take m) p₃ with
            | error e =>
              right
              have he := read_u64_err _ _ _ h4
              subst he
              simp only [quick_scan]
              rw [h1]
              simp only []
              rw [if_neg hm, h2]
              simp only []
              rw [if_neg hv, h3]
              simp only []
              rw [h4]
            | ok x4 =>
              obtain ⟨kv_count, p₄⟩ := x4
              have h4f : read_u64 full p₃ = Except.ok (kv_count, p₄) :=
                read_u64_agree full m p₃ kv_count p₄ h4
              rw [h4f] at hok
              simp only [] at hok
              cases h5 : kv_loop full (min full.length QUICK_SCAN_LIMIT) kv_count p₄ [] with
              | error e =>
                rw [h5] at hok
                exact absurd hok (by simp)
              | ok L =>
                rw [h5] at hok
                simp only [] at hok
                have hrL : r.metadata = L := by
                  injection hok with hrec
                  rw [← hrec]
                have hlim : min (full.take m).length QUICK_SCAN_LIMIT ≤
                    min full.length QUICK_SCAN_LIMIT := by
                  have hlen : (full.take m).length ≤ full.length := by
                    rw [List.length_take]
                    exact min_le_right _ _
                  exact min_le_min hlen (le_refl _)
                rcases kv_loop_dichotomy full m _ _ hlim kv_count p₄ [] L h5 with
                  ⟨L', hL', suf, hsuf⟩ | herr
                · left
                  simp only [quick_scan]
                  rw [h1]
                  simp only []
                  rw [if_neg hm, h2]
                  simp only []
                  rw [if_neg hv, h3]
                  simp only []
                  rw [h4]
                  simp only []
                  rw [hL']
                  simp only []
                  refine ⟨_, rfl, suf, ?_⟩
                  show L' ++ suf = r.metadata
                  rw [hrL]
                  exact hsuf
                · right
                  simp only [quick_scan]
                  rw [h1]
                  simp only []
                  rw [if_neg hm, h2]
                  simp only []
                  rw [if_neg hv, h3]
                  simp only []
                  rw [h4]
                  simp only []
                  rw [herr]

/-- Witness for `quick_scan_truncation_dichotomy` at the concrete file
`gfile` truncated to 30 bytes. -/
theorem quick_scan_truncation_dichotomy_witness :
    quick_scan gfile = .ok gfileScanResult ∧
    ((∃ r', quick_scan (gfile.take 30) = .ok r' ∧
        ∃ suf, r'.metadata ++ suf = gfileScanResult.metadata) ∨
      quick_scan (gfile.take 30) = .error .TruncatedHeader) :=
  ⟨rfl, quick_scan_truncation_dichotomy gfile gfileScanResult 30 rfl⟩

end GGUF
